import Mathlib

/-!
Verification of the resin-preload disk-image preparation tool
(src/preload.py) against its specification.

Python strings are modelled as `List Char`, Python integers as `Nat`/`Int`/`ℚ`
(Python's `int` is unbounded; `/` on numbers is modelled with exact rational
arithmetic), Python dicts as association lists, and mutable dict references as
indices into an explicit heap.  Fallible code returns `Option`.  All
definitions are translated from the source file; definitions that follow the
specification's words instead (for comparison against the code) say so in
their doc comment.
-/

namespace Preload

/-! ## Basic character classes (Python `re` semantics, ASCII range)

Python's `\s` and `\d` match Unicode classes; `sfdisk` output and all strings
manipulated by the tool are ASCII, so the ASCII fragment is modelled. -/

/-- Python regex `\s` (ASCII range): space, tab, newline, carriage return,
vertical tab, form feed. -/
def pyIsSpace (c : Char) : Bool :=
  c = ' ' || c = '\t' || c = '\n' || c = '\x0d' || c = '\x0b' || c = '\x0c'

/-- Python regex `\d` (ASCII range): decimal digits. -/
def pyIsDigit (c : Char) : Bool :=
  c.isDigit

theorem not_space_of_digit {c : Char} (h : pyIsDigit c = true) :
    pyIsSpace c = false := by
  unfold pyIsDigit Char.isDigit at h
  unfold pyIsSpace
  by_contra hs
  simp only [Bool.not_eq_false, Bool.or_eq_true, decide_eq_true_eq] at hs
  rcases hs with ((((h1 | h1) | h1) | h1) | h1) | h1 <;> subst h1 <;> simp at h

theorem digit_ne_of_not_digit {c d : Char} (hc : pyIsDigit c = true)
    (hd : pyIsDigit d = false) : d ≠ c := by
  intro he
  subst he
  rw [hc] at hd
  exact absurd hd (by simp)

theorem comma_not_digit : pyIsDigit ',' = false := by decide

/-! ## Decimal digit strings

`digitsToNat` models Python's `int(...)` applied to a string of decimal
digits; `natDigits` models Python's `str(...)` applied to a non-negative
integer (decimal, no leading zeros, never empty). -/

/-- Python `int(s)` for a string of ASCII decimal digits. -/
def digitsToNat (ds : List Char) : Nat :=
  ds.foldl (fun a c => a * 10 + (c.toNat - 48)) 0

/-- Decimal digit character for a value below ten. -/
def digitChar (k : Nat) : Char :=
  if k = 0 then '0' else if k = 1 then '1' else if k = 2 then '2'
  else if k = 3 then '3' else if k = 4 then '4' else if k = 5 then '5'
  else if k = 6 then '6' else if k = 7 then '7' else if k = 8 then '8'
  else '9'

/-- Python `str(n)` for a non-negative integer: decimal representation. -/
def natDigits (n : Nat) : List Char :=
  if h : n < 10 then [digitChar n]
  else natDigits (n / 10) ++ [digitChar (n % 10)]
  termination_by n
  decreasing_by
    exact Nat.div_lt_self (by omega) (by omega)

theorem natDigits_ne_nil (n : Nat) : natDigits n ≠ [] := by
  unfold natDigits
  split <;> simp

theorem digit_char_isDigit (k : Nat) :
    pyIsDigit (digitChar k) = true := by
  unfold digitChar
  repeat' split
  all_goals decide

theorem digit_char_toNat {k : Nat} (h : k < 10) :
    (digitChar k).toNat - 48 = k := by
  interval_cases k <;> decide

theorem natDigits_all_digit (n : Nat) : ∀ c ∈ natDigits n, pyIsDigit c = true := by
  induction n using Nat.strong_induction_on with
  | _ n ih =>
    unfold natDigits
    split
    · simp only [List.mem_singleton]
      rintro c rfl
      exact digit_char_isDigit n
    · intro c hc
      rw [List.mem_append] at hc
      rcases hc with hc | hc
      · exact ih (n / 10) (Nat.div_lt_self (by omega) (by omega)) c hc
      · rw [List.mem_singleton] at hc
        subst hc
        exact digit_char_isDigit (n % 10)

theorem digitsToNat_append (l₁ l₂ : List Char) :
    digitsToNat (l₁ ++ l₂) =
      l₂.foldl (fun a c => a * 10 + (c.toNat - 48)) (digitsToNat l₁) := by
  unfold digitsToNat
  rw [List.foldl_append]

theorem digitsToNat_natDigits (n : Nat) : digitsToNat (natDigits n) = n := by
  induction n using Nat.strong_induction_on with
  | _ n ih =>
    unfold natDigits
    split
    · rename_i h
      show digitsToNat [digitChar n] = n
      unfold digitsToNat
      simp only [List.foldl_cons, List.foldl_nil, Nat.zero_mul, Nat.zero_add]
      exact digit_char_toNat h
    · rename_i h
      rw [digitsToNat_append, ih (n / 10) (Nat.div_lt_self (by omega) (by omega))]
      show (n / 10) * 10 + ((digitChar (n % 10)).toNat - 48) = n
      rw [digit_char_toNat (Nat.mod_lt _ (by omega))]
      omega

/-! ## takeWhile / dropWhile helpers -/

theorem takeWhile_append_all {p : Char → Bool} {l₁ : List Char}
    (h : ∀ c ∈ l₁, p c = true) (l₂ : List Char) :
    (l₁ ++ l₂).takeWhile p = l₁ ++ l₂.takeWhile p := by
  induction l₁ with
  | nil => simp
  | cons c t ih =>
    have hc : p c = true := h c (List.mem_cons_self c t)
    simp only [List.cons_append, List.takeWhile_cons, hc, if_true]
    rw [ih fun x hx => h x (List.mem_cons_of_mem c hx)]

theorem dropWhile_append_all {p : Char → Bool} {l₁ : List Char}
    (h : ∀ c ∈ l₁, p c = true) (l₂ : List Char) :
    (l₁ ++ l₂).dropWhile p = l₂.dropWhile p := by
  induction l₁ with
  | nil => simp
  | cons c t ih =>
    have hc : p c = true := h c (List.mem_cons_self c t)
    simp only [List.cons_append, List.dropWhile_cons, hc]
    exact ih fun x hx => h x (List.mem_cons_of_mem c hx)

theorem takeWhile_cons_false {p : Char → Bool} {c : Char} (h : p c = false)
    (t : List Char) : (c :: t).takeWhile p = [] := by
  simp [List.takeWhile_cons, h]

theorem dropWhile_cons_false {p : Char → Bool} {c : Char} (h : p c = false)
    (t : List Char) : (c :: t).dropWhile p = c :: t := by
  simp [List.dropWhile_cons, h]

/-! ## Model of the `re.sub` calls in `resize_rootfs_get_sfdisk_script`

The source applies, per line,
  `sub("(.*size=\s*)(\d+)(,.*)", add_size, line)` and
  `sub("(.*start=\s*)(\d+)(,.*)", add_size, line)`.
Because the pattern begins with a greedy `.*`, a match (when one exists)
starts at position 0, ends at the end of the line, and places the key
(`size=` / `start=`) at the rightmost position that is followed by optional
whitespace, one or more digits and a comma.  `tryMatch` models one match
attempt with the key anchored at the start of the remaining text; `findLast`
returns the rightmost successful attempt, split into the three groups
`(.*key\s*)`, `(\d+)`, `(,.*)`. -/

/-- One anchored match attempt of `key\s*\d+,` at the head of `s`,
returning the groups `(key with trailing whitespace, digits, comma onward)`. -/
def tryMatch (key s : List Char) : Option (List Char × List Char × List Char) :=
  if key.isPrefixOf s then
    let rest := s.drop key.length
    let ws := rest.takeWhile pyIsSpace
    let rest2 := rest.dropWhile pyIsSpace
    let ds := rest2.takeWhile pyIsDigit
    let rest3 := rest2.dropWhile pyIsDigit
    if ds ≠ [] ∧ rest3.head? = some ',' then some (key ++ ws, ds, rest3)
    else none
  else none

/-- Rightmost successful match attempt in `s`, with all text before the key
absorbed into the first group (as the regex's leading greedy `.*` does). -/
def findLast (key : List Char) : List Char → Option (List Char × List Char × List Char)
  | [] => none
  | c :: t =>
    match findLast key t with
    | some (p, d, q) => some (c :: p, d, q)
    | none => tryMatch key (c :: t)

/-- Python `re.sub(r"(.*key\s*)(\d+)(,.*)", add_size, line)` where `add_size`
replaces the digit group by `str(int(digits) + add)`: if no match, the line is
returned unchanged. -/
def subAdd (key : List Char) (add : Nat) (line : List Char) : List Char :=
  match findLast key line with
  | none => line
  | some (p, d, q) => p ++ natDigits (digitsToNat d + add) ++ q

theorem findLast_append_some {key s₂ : List Char} {p d q : List Char}
    (h : findLast key s₂ = some (p, d, q)) (s₁ : List Char) :
    findLast key (s₁ ++ s₂) = some (s₁ ++ p, d, q) := by
  induction s₁ with
  | nil => simpa using h
  | cons c t ih =>
    show findLast key (c :: (t ++ s₂)) = _
    unfold findLast
    rw [ih]
    rfl

theorem tryMatch_isSome_start {key s : List Char} {r}
    (h : tryMatch key s = some r) : key <+: s := by
  unfold tryMatch at h
  split at h
  · rename_i hp
    exact List.isPrefixOf_iff_prefix.mp hp
  · exact absurd h (by simp)

theorem findLast_some_within {key s : List Char}
    (h : (findLast key s).isSome) : key <:+: s := by
  induction s with
  | nil => exact absurd h (by simp [findLast])
  | cons c t ih =>
    unfold findLast at h
    cases hf : findLast key t with
    | some r3 =>
      exact (ih (by rw [hf]; rfl)).trans (by exact ⟨[c], [], by simp⟩)
    | none =>
      rw [hf] at h
      obtain ⟨r, hr⟩ := Option.isSome_iff_exists.mp h
      exact (tryMatch_isSome_start hr).isInfix

theorem findLast_eq_none {key s : List Char} (h : ¬ key <:+: s) :
    findLast key s = none := by
  cases hf : findLast key s with
  | none => rfl
  | some r => exact absurd (findLast_some_within (by rw [hf]; rfl)) h

/-! ### Lemmas for showing a key does not occur in a region of a line -/

theorem notWithin_cons {k₀ : Char} {ks t : List Char} {c : Char}
    (hne : c ≠ k₀) (h : ¬ (k₀ :: ks) <:+: t) : ¬ (k₀ :: ks) <:+: (c :: t) := by
  rw [List.infix_cons_iff]
  rintro (hp | hi)
  · rw [List.cons_prefix_cons] at hp
    exact hne hp.1.symm
  · exact h hi

theorem notWithin_digits {k₀ : Char} {ks d t : List Char}
    (hk : pyIsDigit k₀ = false) (hd : ∀ c ∈ d, pyIsDigit c = true)
    (h : ¬ (k₀ :: ks) <:+: t) : ¬ (k₀ :: ks) <:+: (d ++ t) := by
  induction d with
  | nil => simpa using h
  | cons c cs ih =>
    have hc : pyIsDigit c = true := hd c (List.mem_cons_self c cs)
    show ¬ (k₀ :: ks) <:+: (c :: (cs ++ t))
    exact notWithin_cons (Ne.symm (digit_ne_of_not_digit hc hk))
      (ih fun x hx => hd x (List.mem_cons_of_mem c hx))

theorem notWithin_cons' {k t : List Char} {c : Char}
    (hp : ¬ k <+: (c :: t)) (h : ¬ k <:+: t) : ¬ k <:+: (c :: t) := by
  rw [List.infix_cons_iff]
  rintro (h1 | h2)
  · exact hp h1
  · exact h h2

/-- Anchored match of `key\s*\d+,` against the canonical field text
`key ++ " " ++ digits ++ "," ++ rest`. -/
theorem tryMatch_canonical {key d b : List Char} (hd : d ≠ [])
    (hdd : ∀ c ∈ d, pyIsDigit c = true) :
    tryMatch key (key ++ ' ' :: (d ++ ',' :: b)) = some (key ++ [' '], d, ',' :: b) := by
  obtain ⟨c, cs, rfl⟩ : ∃ c cs, d = c :: cs := by
    cases d with
    | nil => exact absurd rfl hd
    | cons c cs => exact ⟨c, cs, rfl⟩
  have hc : pyIsDigit c = true := hdd c (List.mem_cons_self c cs)
  have hspace : pyIsSpace ' ' = true := rfl
  have h1 : List.takeWhile pyIsSpace (' ' :: ((c :: cs) ++ ',' :: b)) = [' '] := by
    simp [List.takeWhile_cons, hspace, not_space_of_digit hc]
  have h2 : List.dropWhile pyIsSpace (' ' :: ((c :: cs) ++ ',' :: b)) = (c :: cs) ++ ',' :: b := by
    simp [List.dropWhile_cons, hspace, not_space_of_digit hc]
  have h3 : List.takeWhile pyIsDigit ((c :: cs) ++ ',' :: b) = c :: cs := by
    rw [show (c :: cs) ++ ',' :: b = (c :: cs) ++ (',' :: b) from rfl,
      takeWhile_append_all hdd, takeWhile_cons_false comma_not_digit, List.append_nil]
  have h4 : List.dropWhile pyIsDigit ((c :: cs) ++ ',' :: b) = ',' :: b := by
    rw [show (c :: cs) ++ ',' :: b = (c :: cs) ++ (',' :: b) from rfl,
      dropWhile_append_all hdd, dropWhile_cons_false comma_not_digit]
  unfold tryMatch
  rw [if_pos (List.isPrefixOf_iff_prefix.mpr (List.prefix_append key _))]
  simp only [List.drop_left, h1, h2, h3, h4]
  rw [if_pos ⟨by simp, rfl⟩]

/-! ## The sfdisk dump line format

A canonical partition line of an `sfdisk -d` dump has the form
`<device> : start= <digits>, size= <digits>, type=<rest>`
(`<rest>` carries the type and any further fields such as `bootable`,
verbatim). -/

/-- Key `size=` of the grow-line regex. -/
def sizeKey : List Char := ['s', 'i', 'z', 'e', '=']

/-- Key `start=` of the shift-line regex. -/
def startKey : List Char := ['s', 't', 'a', 'r', 't', '=']

/-- Literal text `" : start= "`. -/
def sepStart : List Char := [' ', ':', ' ', 's', 't', 'a', 'r', 't', '=', ' ']

/-- Literal text `", size= "`. -/
def sepSize : List Char := [',', ' ', 's', 'i', 'z', 'e', '=', ' ']

/-- Literal text `", type="`. -/
def sepType : List Char := [',', ' ', 't', 'y', 'p', 'e', '=']

/-- One partition entry of the table: device text, start sector, size in
sectors, and the verbatim remainder of the line after `type=`. -/
structure PartLine where
  dev : List Char
  start : Nat
  size : Nat
  typ : List Char

/-- Textual form of a partition entry as `sfdisk -d` prints it. -/
def renderPartLine (p : PartLine) : List Char :=
  p.dev ++ (sepStart ++ (natDigits p.start ++ (sepSize ++ (natDigits p.size ++ (sepType ++ p.typ)))))

theorem size_notWithin {D typ : List Char} (hD : ∀ c ∈ D, pyIsDigit c = true)
    (htyp : ¬ sizeKey <:+: typ) :
    ¬ sizeKey <:+: ('i' :: 'z' :: 'e' :: '=' :: ' ' :: (D ++ (sepType ++ typ))) := by
  have g1 : ¬ sizeKey <:+: ('=' :: typ) := notWithin_cons (by decide) htyp
  have g2 : ¬ sizeKey <:+: ('e' :: '=' :: typ) := notWithin_cons (by decide) g1
  have g3 : ¬ sizeKey <:+: ('p' :: 'e' :: '=' :: typ) := notWithin_cons (by decide) g2
  have g4 : ¬ sizeKey <:+: ('y' :: 'p' :: 'e' :: '=' :: typ) := notWithin_cons (by decide) g3
  have g5 : ¬ sizeKey <:+: ('t' :: 'y' :: 'p' :: 'e' :: '=' :: typ) := notWithin_cons (by decide) g4
  have g6 : ¬ sizeKey <:+: (' ' :: 't' :: 'y' :: 'p' :: 'e' :: '=' :: typ) := notWithin_cons (by decide) g5
  have g7 : ¬ sizeKey <:+: (sepType ++ typ) := notWithin_cons (by decide) g6
  have g8 : ¬ sizeKey <:+: (D ++ (sepType ++ typ)) := notWithin_digits (by decide) hD g7
  have g9 : ¬ sizeKey <:+: (' ' :: (D ++ (sepType ++ typ))) := notWithin_cons (by decide) g8
  have g10 : ¬ sizeKey <:+: ('=' :: ' ' :: (D ++ (sepType ++ typ))) := notWithin_cons (by decide) g9
  have g11 : ¬ sizeKey <:+: ('e' :: '=' :: ' ' :: (D ++ (sepType ++ typ))) := notWithin_cons (by decide) g10
  have g12 : ¬ sizeKey <:+: ('z' :: 'e' :: '=' :: ' ' :: (D ++ (sepType ++ typ))) := notWithin_cons (by decide) g11
  exact notWithin_cons (by decide) g12

/-- The rightmost `size=\s*\d+,` match in a canonical partition line is the
canonical `size=` field. -/
theorem findLast_size_render (p : PartLine) (htyp : ¬ sizeKey <:+: p.typ) :
    findLast sizeKey (renderPartLine p) =
      some (p.dev ++ (sepStart ++ (natDigits p.start ++ sepSize)),
        natDigits p.size, sepType ++ p.typ) := by
  have hD2 := natDigits_all_digit p.size
  have hT2tail : findLast sizeKey
      ('i' :: 'z' :: 'e' :: '=' :: ' ' :: (natDigits p.size ++ (sepType ++ p.typ))) = none :=
    findLast_eq_none (size_notWithin hD2 htyp)
  have hT2 : findLast sizeKey
      ('s' :: 'i' :: 'z' :: 'e' :: '=' :: ' ' :: (natDigits p.size ++ (sepType ++ p.typ))) =
      some (sizeKey ++ [' '], natDigits p.size, ',' :: ([' ', 't', 'y', 'p', 'e', '='] ++ p.typ)) := by
    unfold findLast
    rw [hT2tail]
    have := @tryMatch_canonical sizeKey (natDigits p.size)
      ([' ', 't', 'y', 'p', 'e', '='] ++ p.typ) (natDigits_ne_nil p.size) hD2
    simpa [sizeKey, sepType] using this
  have hS2a : findLast sizeKey
      (' ' :: 's' :: 'i' :: 'z' :: 'e' :: '=' :: ' ' :: (natDigits p.size ++ (sepType ++ p.typ))) =
      some (' ' :: (sizeKey ++ [' ']), natDigits p.size, ',' :: ([' ', 't', 'y', 'p', 'e', '='] ++ p.typ)) := by
    unfold findLast
    rw [hT2]
  have hS2 : findLast sizeKey
      (sepSize ++ (natDigits p.size ++ (sepType ++ p.typ))) =
      some (sepSize, natDigits p.size, sepType ++ p.typ) := by
    show findLast sizeKey
      (',' :: ' ' :: 's' :: 'i' :: 'z' :: 'e' :: '=' :: ' ' :: (natDigits p.size ++ (sepType ++ p.typ))) = _
    unfold findLast
    rw [hS2a]
    simp [sepSize, sepType, sizeKey]
  have h1 := findLast_append_some hS2 (natDigits p.start)
  have h2 := findLast_append_some h1 sepStart
  have h3 := findLast_append_some h2 p.dev
  unfold renderPartLine
  simpa using h3

theorem start_notWithin {D1 D2 typ : List Char}
    (hD1 : ∀ c ∈ D1, pyIsDigit c = true) (hD2 : ∀ c ∈ D2, pyIsDigit c = true)
    (htyp : ¬ startKey <:+: typ) :
    ¬ startKey <:+:
      ('t' :: 'a' :: 'r' :: 't' :: '=' :: ' ' ::
        (D1 ++ (sepSize ++ (D2 ++ (sepType ++ typ))))) := by
  have g1 : ¬ startKey <:+: ('=' :: typ) := notWithin_cons (by decide) htyp
  have g2 : ¬ startKey <:+: ('e' :: '=' :: typ) := notWithin_cons (by decide) g1
  have g3 : ¬ startKey <:+: ('p' :: 'e' :: '=' :: typ) := notWithin_cons (by decide) g2
  have g4 : ¬ startKey <:+: ('y' :: 'p' :: 'e' :: '=' :: typ) := notWithin_cons (by decide) g3
  have g5 : ¬ startKey <:+: ('t' :: 'y' :: 'p' :: 'e' :: '=' :: typ) := notWithin_cons (by decide) g4
  have g6 : ¬ startKey <:+: (' ' :: 't' :: 'y' :: 'p' :: 'e' :: '=' :: typ) := notWithin_cons (by decide) g5
  have g7 : ¬ startKey <:+: (sepType ++ typ) := notWithin_cons (by decide) g6
  have g8 : ¬ startKey <:+: (D2 ++ (sepType ++ typ)) := notWithin_digits (by decide) hD2 g7
  have g9 : ¬ startKey <:+: (' ' :: (D2 ++ (sepType ++ typ))) := notWithin_cons (by decide) g8
  have g10 : ¬ startKey <:+: ('=' :: ' ' :: (D2 ++ (sepType ++ typ))) := notWithin_cons (by decide) g9
  have g11 : ¬ startKey <:+: ('e' :: '=' :: ' ' :: (D2 ++ (sepType ++ typ))) := notWithin_cons (by decide) g10
  have g12 : ¬ startKey <:+: ('z' :: 'e' :: '=' :: ' ' :: (D2 ++ (sepType ++ typ))) := notWithin_cons (by decide) g11
  have g13 : ¬ startKey <:+: ('i' :: 'z' :: 'e' :: '=' :: ' ' :: (D2 ++ (sepType ++ typ))) := notWithin_cons (by decide) g12
  have g14 : ¬ startKey <:+: ('s' :: 'i' :: 'z' :: 'e' :: '=' :: ' ' :: (D2 ++ (sepType ++ typ))) := by
    refine notWithin_cons' ?_ g13
    intro hp
    rw [show startKey = 's' :: 't' :: ['a', 'r', 't', '='] from rfl] at hp
    rw [List.cons_prefix_cons] at hp
    rw [List.cons_prefix_cons] at hp
    exact absurd hp.2.1 (by decide)
  have g15 : ¬ startKey <:+: (' ' :: 's' :: 'i' :: 'z' :: 'e' :: '=' :: ' ' :: (D2 ++ (sepType ++ typ))) :=
    notWithin_cons (by decide) g14
  have g16 : ¬ startKey <:+: (sepSize ++ (D2 ++ (sepType ++ typ))) :=
    notWithin_cons (by decide) g15
  have g17 : ¬ startKey <:+: (D1 ++ (sepSize ++ (D2 ++ (sepType ++ typ)))) :=
    notWithin_digits (by decide) hD1 g16
  have g18 : ¬ startKey <:+: (' ' :: (D1 ++ (sepSize ++ (D2 ++ (sepType ++ typ))))) :=
    notWithin_cons (by decide) g17
  have g19 : ¬ startKey <:+: ('=' :: ' ' :: (D1 ++ (sepSize ++ (D2 ++ (sepType ++ typ))))) :=
    notWithin_cons (by decide) g18
  have g20 : ¬ startKey <:+: ('t' :: '=' :: ' ' :: (D1 ++ (sepSize ++ (D2 ++ (sepType ++ typ))))) :=
    notWithin_cons (by decide) g19
  have g21 : ¬ startKey <:+: ('r' :: 't' :: '=' :: ' ' :: (D1 ++ (sepSize ++ (D2 ++ (sepType ++ typ))))) :=
    notWithin_cons (by decide) g20
  have g22 : ¬ startKey <:+: ('a' :: 'r' :: 't' :: '=' :: ' ' :: (D1 ++ (sepSize ++ (D2 ++ (sepType ++ typ))))) :=
    notWithin_cons (by decide) g21
  exact notWithin_cons (by decide) g22

/-- The rightmost `start=\s*\d+,` match in a canonical partition line is the
canonical `start=` field. -/
theorem findLast_start_render (p : PartLine) (htyp : ¬ startKey <:+: p.typ) :
    findLast startKey (renderPartLine p) =
      some (p.dev ++ ([' ', ':', ' '] ++ (startKey ++ [' '])), natDigits p.start,
        sepSize ++ (natDigits p.size ++ (sepType ++ p.typ))) := by
  have hD1 := natDigits_all_digit p.start
  have hD2 := natDigits_all_digit p.size
  have htail : findLast startKey
      ('t' :: 'a' :: 'r' :: 't' :: '=' :: ' ' ::
        (natDigits p.start ++ (sepSize ++ (natDigits p.size ++ (sepType ++ p.typ))))) = none :=
    findLast_eq_none (start_notWithin hD1 hD2 htyp)
  have hS2 : findLast startKey
      ('s' :: 't' :: 'a' :: 'r' :: 't' :: '=' :: ' ' ::
        (natDigits p.start ++ (sepSize ++ (natDigits p.size ++ (sepType ++ p.typ))))) =
      some (startKey ++ [' '], natDigits p.start,
        ',' :: ([' ', 's', 'i', 'z', 'e', '=', ' '] ++ (natDigits p.size ++ (sepType ++ p.typ)))) := by
    unfold findLast
    rw [htail]
    have := @tryMatch_canonical startKey (natDigits p.start)
      ([' ', 's', 'i', 'z', 'e', '=', ' '] ++ (natDigits p.size ++ (sepType ++ p.typ)))
      (natDigits_ne_nil p.start) hD1
    simpa [startKey, sepSize] using this
  have hSa : findLast startKey
      (' ' :: 's' :: 't' :: 'a' :: 'r' :: 't' :: '=' :: ' ' ::
        (natDigits p.start ++ (sepSize ++ (natDigits p.size ++ (sepType ++ p.typ))))) =
      some (' ' :: (startKey ++ [' ']), natDigits p.start,
        ',' :: ([' ', 's', 'i', 'z', 'e', '=', ' '] ++ (natDigits p.size ++ (sepType ++ p.typ)))) := by
    unfold findLast
    rw [hS2]
  have hSb : findLast startKey
      (':' :: ' ' :: 's' :: 't' :: 'a' :: 'r' :: 't' :: '=' :: ' ' ::
        (natDigits p.start ++ (sepSize ++ (natDigits p.size ++ (sepType ++ p.typ))))) =
      some (':' :: ' ' :: (startKey ++ [' ']), natDigits p.start,
        ',' :: ([' ', 's', 'i', 'z', 'e', '=', ' '] ++ (natDigits p.size ++ (sepType ++ p.typ)))) := by
    unfold findLast
    rw [hSa]
  have hSc : findLast startKey
      (' ' :: ':' :: ' ' :: 's' :: 't' :: 'a' :: 'r' :: 't' :: '=' :: ' ' ::
        (natDigits p.start ++ (sepSize ++ (natDigits p.size ++ (sepType ++ p.typ))))) =
      some (' ' :: ':' :: ' ' :: (startKey ++ [' ']), natDigits p.start,
        ',' :: ([' ', 's', 'i', 'z', 'e', '=', ' '] ++ (natDigits p.size ++ (sepType ++ p.typ)))) := by
    unfold findLast
    rw [hSb]
  have h3 := findLast_append_some hSc p.dev
  unfold renderPartLine
  have hgoal := h3
  simp only [sepStart, sepSize, sepType, startKey] at hgoal ⊢
  simpa using hgoal

/-- Applying the `size=` substitution to a canonical partition line adds
`add` to the size field and leaves everything else verbatim. -/
theorem subAdd_size_render (p : PartLine) (add : Nat) (htyp : ¬ sizeKey <:+: p.typ) :
    subAdd sizeKey add (renderPartLine p) = renderPartLine { p with size := p.size + add } := by
  unfold subAdd
  rw [findLast_size_render p htyp]
  show (p.dev ++ (sepStart ++ (natDigits p.start ++ sepSize))) ++
      natDigits (digitsToNat (natDigits p.size) + add) ++ (sepType ++ p.typ) = _
  rw [digitsToNat_natDigits]
  unfold renderPartLine
  simp [List.append_assoc]

/-- Applying the `start=` substitution to a canonical partition line adds
`add` to the start field and leaves everything else verbatim. -/
theorem subAdd_start_render (p : PartLine) (add : Nat) (htyp : ¬ startKey <:+: p.typ) :
    subAdd startKey add (renderPartLine p) = renderPartLine { p with start := p.start + add } := by
  unfold subAdd
  rw [findLast_start_render p htyp]
  show (p.dev ++ ([' ', ':', ' '] ++ (startKey ++ [' ']))) ++
      natDigits (digitsToNat (natDigits p.start) + add) ++
      (sepSize ++ (natDigits p.size ++ (sepType ++ p.typ))) = _
  rw [digitsToNat_natDigits]
  unfold renderPartLine
  simp [sepStart, startKey, List.append_assoc]

/-! ## Splitting and joining lines

Models Python's `layout.split("\n")` and `"\n".join(lines)`. -/

/-- Python `s.split("\n")`. -/
def splitNl : List Char → List (List Char)
  | [] => [[]]
  | c :: t =>
    if c = '\n' then [] :: splitNl t
    else
      match splitNl t with
      | [] => [[c]]
      | h :: r => (c :: h) :: r

/-- Python `"\n".join(lines)`. -/
def joinNl : List (List Char) → List Char
  | [] => []
  | [l] => l
  | l :: ls => l ++ '\n' :: joinNl ls

theorem splitNl_ne_nil (s : List Char) : splitNl s ≠ [] := by
  induction s with
  | nil => simp [splitNl]
  | cons c t ih =>
    unfold splitNl
    split
    · simp
    · cases hs : splitNl t with
      | nil => simp
      | cons h r => simp

theorem splitNl_no_nl {l : List Char} (h : ('\n' : Char) ∉ l) : splitNl l = [l] := by
  induction l with
  | nil => rfl
  | cons c t ih =>
    unfold splitNl
    rw [if_neg (by intro hc; exact h (hc ▸ List.mem_cons_self c t))]
    rw [ih fun hm => h (List.mem_cons_of_mem c hm)]

theorem splitNl_append_nl {l : List Char} (h : ('\n' : Char) ∉ l) (t : List Char) :
    splitNl (l ++ '\n' :: t) = l :: splitNl t := by
  induction l with
  | nil => simp [splitNl]
  | cons c cs ih =>
    show splitNl (c :: (cs ++ '\n' :: t)) = _
    conv_lhs => unfold splitNl
    rw [if_neg (by intro hc; exact h (hc ▸ List.mem_cons_self c cs))]
    rw [ih fun hm => h (List.mem_cons_of_mem c hm)]

theorem splitNl_joinNl {L : List (List Char)} (hne : L ≠ [])
    (h : ∀ l ∈ L, ('\n' : Char) ∉ l) : splitNl (joinNl L) = L := by
  induction L with
  | nil => exact absurd rfl hne
  | cons l ls ih =>
    cases ls with
    | nil =>
      show splitNl (joinNl [l]) = [l]
      exact splitNl_no_nl (h l (List.mem_cons_self l []))
    | cons l2 ls2 =>
      show splitNl (l ++ '\n' :: joinNl (l2 :: ls2)) = _
      rw [splitNl_append_nl (h l (List.mem_cons_self l _))]
      rw [ih (by simp) fun x hx => h x (List.mem_cons_of_mem l hx)]

/-! ## The Layout Rewriter (`resize_rootfs_get_sfdisk_script`) -/

/-- Core of `resize_rootfs_get_sfdisk_script` on the list of lines of the
dump: `lines[6] = sub(size-pattern, ...)` and
`for i in range(7, len(lines)): lines[i] = sub(start-pattern, ...)`.
A dump with at most 6 lines raises `IndexError` (modelled as `none`). -/
def rewriteDumpLines (add : Nat) (lines : List (List Char)) : Option (List (List Char)) :=
  match lines.drop 6 with
  | [] => none
  | l6 :: rest =>
    some (lines.take 6 ++ subAdd sizeKey add l6 :: rest.map (subAdd startKey add))

/-- The Layout Rewriter: split the (stripped) `sfdisk -d` output into lines,
grow the size field of the 7th line (the 2nd partition), shift the start
field of every following line, and join the lines back. -/
def resize_rootfs_get_sfdisk_script (layout : List Char) (additional_sectors : Nat) :
    Option (List Char) :=
  (rewriteDumpLines additional_sectors (splitNl layout)).map joinNl

/-- Transformation the specification describes for a resize plan with
`growIndex = 2`: partition 2's size grows by `additionalSectors`, the start
of every later partition shifts by `additionalSectors`, and every other field
of every entry is unchanged. -/
def rewriteTable (parts : List PartLine) (add : Nat) : List PartLine :=
  match parts with
  | p0 :: p1 :: rest =>
    p0 :: { p1 with size := p1.size + add } ::
      rest.map fun p => { p with start := p.start + add }
  | short => short

/-- A partition entry whose free-text fields cannot be confused with the
`size=` / `start=` field patterns and contain no newline. -/
def CleanPart (p : PartLine) : Prop :=
  ¬ sizeKey <:+: p.typ ∧ ¬ startKey <:+: p.typ ∧
    ('\n' : Char) ∉ p.dev ∧ ('\n' : Char) ∉ p.typ

instance (p : PartLine) : Decidable (CleanPart p) := by
  unfold CleanPart
  infer_instance

theorem renderPartLine_no_nl {p : PartLine} (h : CleanPart p) :
    ('\n' : Char) ∉ renderPartLine p := by
  obtain ⟨-, -, hdev, htyp⟩ := h
  unfold renderPartLine
  intro hm
  simp only [List.mem_append] at hm
  have hd1 := natDigits_all_digit p.start
  have hd2 := natDigits_all_digit p.size
  rcases hm with hm | hm | hm | hm | hm | hm | hm
  · exact hdev hm
  · exact absurd hm (by decide)
  · exact absurd (hd1 _ hm) (by decide)
  · exact absurd hm (by decide)
  · exact absurd (hd2 _ hm) (by decide)
  · exact absurd hm (by decide)
  · exact htyp hm

theorem drop_header {α : Type} (header X : List α) (hh : header.length = 5) :
    (header ++ X).drop 6 = X.drop 1 := by
  rw [show 6 = header.length + 1 from by omega]
  rw [List.drop_append]

theorem take_header {α : Type} (header X : List α) (hh : header.length = 5) :
    (header ++ X).take 6 = header ++ X.take 1 := by
  rw [show 6 = header.length + 1 from by omega]
  rw [List.take_append]

/-- C1.  For every valid sfdisk dump (standard five header lines followed by
canonical partition lines) of a table with at least two partitions and every
`additionalSectors`, the Layout Rewriter returns exactly the dump of the
table in which partition 2's size is increased by `additionalSectors`, the
start of every later partition is increased by `additionalSectors`, and every
other field of every line (device text, partition-1 fields, types, bootable
flags, order, header) is preserved verbatim. -/
theorem C1_layout_rewriter (header : List (List Char)) (parts : List PartLine) (add : Nat)
    (hh : header.length = 5) (hhnl : ∀ l ∈ header, ('\n' : Char) ∉ l)
    (hp : 2 ≤ parts.length) (hclean : ∀ p ∈ parts, CleanPart p) :
    resize_rootfs_get_sfdisk_script (joinNl (header ++ parts.map renderPartLine)) add =
      some (joinNl (header ++ (rewriteTable parts add).map renderPartLine)) := by
  obtain ⟨p0, p1, ps, rfl⟩ : ∃ p0 p1 ps, parts = p0 :: p1 :: ps := by
    cases parts with
    | nil => simp at hp
    | cons p0 rest =>
      cases rest with
      | nil => simp at hp
      | cons p1 ps => exact ⟨p0, p1, ps, rfl⟩
  have hc0 : CleanPart p0 := hclean p0 (by simp)
  have hc1 : CleanPart p1 := hclean p1 (by simp)
  unfold resize_rootfs_get_sfdisk_script
  have hsplit : splitNl (joinNl (header ++ (p0 :: p1 :: ps).map renderPartLine)) =
      header ++ (p0 :: p1 :: ps).map renderPartLine := by
    refine splitNl_joinNl (by simp) ?_
    intro l hl
    rw [List.mem_append] at hl
    rcases hl with hl | hl
    · exact hhnl l hl
    · rw [List.mem_map] at hl
      obtain ⟨p, hpmem, rfl⟩ := hl
      exact renderPartLine_no_nl (hclean p hpmem)
  rw [hsplit]
  have hdrop : (header ++ (p0 :: p1 :: ps).map renderPartLine).drop 6 =
      renderPartLine p1 :: ps.map renderPartLine := by
    rw [drop_header _ _ hh]
    simp
  have htake : (header ++ (p0 :: p1 :: ps).map renderPartLine).take 6 =
      header ++ [renderPartLine p0] := by
    rw [take_header _ _ hh]
    simp
  unfold rewriteDumpLines
  rw [hdrop, htake]
  show Option.map joinNl
      (some (header ++ [renderPartLine p0] ++
        subAdd sizeKey add (renderPartLine p1) ::
          (ps.map renderPartLine).map (subAdd startKey add))) = _
  have hmap : (ps.map renderPartLine).map (subAdd startKey add) =
      (ps.map fun p => { p with start := p.start + add }).map renderPartLine := by
    rw [List.map_map, List.map_map]
    refine List.map_congr_left ?_
    intro p hpmem
    exact subAdd_start_render p add (hclean p (by simp [hpmem])).2.1
  rw [hmap, subAdd_size_render p1 add hc1.1]
  show some _ = some _
  congr 1
  unfold rewriteTable
  simp

/-- C1 witness: a concrete three-partition dump with `additionalSectors = 4096`. -/
theorem C1_layout_rewriter_witness :
    ([("label: dos").data, ("label-id: 0xa").data, ("device: resin.img").data,
        ("unit: sectors").data, ([] : List Char)].length = 5) ∧
      resize_rootfs_get_sfdisk_script
        (joinNl ([("label: dos").data, ("label-id: 0xa").data, ("device: resin.img").data,
          ("unit: sectors").data, ([] : List Char)] ++
          ([⟨("resin.img1").data, 8192, 40960, ("c").data⟩,
            ⟨("resin.img2").data, 49152, 20000, ("83").data⟩,
            ⟨("resin.img3").data, 69152, 1000, ("83, bootable").data⟩] :
              List PartLine).map renderPartLine)) 4096 =
      some (joinNl ([("label: dos").data, ("label-id: 0xa").data, ("device: resin.img").data,
          ("unit: sectors").data, ([] : List Char)] ++
          (rewriteTable
            [⟨("resin.img1").data, 8192, 40960, ("c").data⟩,
              ⟨("resin.img2").data, 49152, 20000, ("83").data⟩,
              ⟨("resin.img3").data, 69152, 1000, ("83, bootable").data⟩] 4096).map
            renderPartLine)) := by
  constructor
  · rfl
  · exact C1_layout_rewriter _ _ 4096 rfl (by decide) (by decide) (by decide)

theorem subAdd_no_match {key l : List Char} (add : Nat)
    (h : findLast key l = none) : subAdd key add l = l := by
  unfold subAdd
  rw [h]

/-- C6 counterexample input: a dump whose 7th line has no `size=` field and
whose 8th line has no `start=` field. -/
def degenerateDump : List Char :=
  joinNl [("label: dos").data, ("label-id: 0xb").data, ("device: a.img").data,
    ("unit: sectors").data, [], ("a.img1 : start= 8192, size= 100, type=c").data,
    ("this line has no expected fields").data, ("neither does this one").data]

/-- C6 counterexample: on a dump whose grow line does not match the `size=`
field pattern (and whose following line does not match the `start=` pattern),
the Layout Rewriter returns the dump unchanged and reports no error at all,
contradicting the claim that it fails with a `LayoutFormatError` and never
silently skips such a line. -/
theorem C6_counterexample :
    resize_rootfs_get_sfdisk_script degenerateDump 7 = some degenerateDump := by
  decide

/-- C6 as amended: if a line that the Layout Rewriter is expected to
transform does not match the expected field pattern, `re.sub` leaves that
line unchanged in the output and the rewrite completes without any error
(there is no `LayoutFormatError` in the program); non-matching lines are
silently skipped. -/
theorem C6_amended (pre : List (List Char)) (l6 : List Char) (rest : List (List Char))
    (add : Nat) (hpre : pre.length = 6) (h6 : findLast sizeKey l6 = none)
    (hrest : ∀ l ∈ rest, findLast startKey l = none) :
    rewriteDumpLines add (pre ++ l6 :: rest) = some (pre ++ l6 :: rest) := by
  have hdrop : (pre ++ l6 :: rest).drop 6 = l6 :: rest := by
    rw [show 6 = pre.length from hpre.symm]
    exact List.drop_left pre _
  have htake : (pre ++ l6 :: rest).take 6 = pre := by
    rw [show 6 = pre.length from hpre.symm]
    exact List.take_left pre _
  unfold rewriteDumpLines
  rw [hdrop, htake]
  show some (pre ++ subAdd sizeKey add l6 :: rest.map (subAdd startKey add)) = _
  rw [subAdd_no_match add h6]
  have : rest.map (subAdd startKey add) = rest := by
    rw [show rest.map (subAdd startKey add) = rest.map id from
      List.map_congr_left fun l hl => subAdd_no_match add (hrest l hl)]
    exact List.map_id rest
  rw [this]

/-- C6 amended-claim witness: concrete unmatched lines pass through untouched. -/
theorem C6_amended_witness :
    ([("a").data, ("b").data, ("c").data, ("d").data, [], ("p1").data].length = 6) ∧
      rewriteDumpLines 7
        ([("a").data, ("b").data, ("c").data, ("d").data, [], ("p1").data] ++
          ("no fields here").data :: [("none here either").data]) =
      some ([("a").data, ("b").data, ("c").data, ("d").data, [], ("p1").data] ++
        ("no fields here").data :: [("none here either").data]) := by
  constructor
  · rfl
  · exact C6_amended _ _ _ 7 rfl (by decide) (by decide)

/-! ## Sector Arithmetic (`round_to_sector_size`)

The source computes `sectors = size / sector_size` with Python's true
division; `float.is_integer` is modelled by the rational having denominator
one.  Arithmetic is modelled exactly (ℚ); Python's binary floating point
agrees with this model throughout the tool's operating range. -/

/-- Python `round_to_sector_size(size, sector_size=512)`:
`sectors = size / sector_size; if not sectors.is_integer(): sectors =
floor(sectors) + 1; return sectors * sector_size`. -/
def round_to_sector_size (size : ℚ) : ℚ :=
  let sectors := size / 512
  if sectors.den = 1 then sectors * 512
  else ((⌊sectors⌋ + 1 : ℤ) : ℚ) * 512

theorem den_eq_one_iff_dvd (x : ℕ) : ((x : ℚ) / 512).den = 1 ↔ 512 ∣ x := by
  constructor
  · intro h
    set q : ℚ := (x : ℚ) / 512 with hqdef
    have hq := (Rat.den_eq_one_iff q).mp h
    have hx : (x : ℚ) = (q.num : ℚ) * 512 := by
      rw [hq, hqdef]
      exact (div_mul_cancel₀ (x : ℚ) (by norm_num)).symm
    have hxz : (x : ℤ) = q.num * 512 := by exact_mod_cast hx
    refine ⟨q.num.toNat, ?_⟩
    omega
  · rintro ⟨k, rfl⟩
    have h : ((512 * k : ℕ) : ℚ) / 512 = (k : ℚ) := by
      push_cast
      rw [mul_comm, mul_div_assoc]
      norm_num
    rw [h]
    exact Rat.den_natCast k

theorem round_fixed_on_multiple (k : ℕ) :
    round_to_sector_size ((512 * k : ℕ) : ℚ) = ((512 * k : ℕ) : ℚ) := by
  unfold round_to_sector_size
  rw [if_pos ((den_eq_one_iff_dvd _).mpr ⟨k, rfl⟩)]
  rw [div_mul_cancel₀ _ (by norm_num : (512 : ℚ) ≠ 0)]

/-- C5.  For every non-negative byte count `x`, `round_to_sector_size x` is
the smallest multiple of 512 that is at least `x`: it equals
`512 * ⌈x / 512⌉`, is a multiple of 512, is at least `x`, is at most any
512-multiple that is at least `x`, and the function is idempotent. -/
theorem C5_round_to_sector_size (x : ℕ) :
    round_to_sector_size x = ((512 * ((x + 511) / 512) : ℕ) : ℚ) ∧
      round_to_sector_size (round_to_sector_size x) = round_to_sector_size x ∧
      (∃ k : ℕ, round_to_sector_size x = ((512 * k : ℕ) : ℚ)) ∧
      (x : ℚ) ≤ round_to_sector_size x ∧
      (∀ m : ℕ, 512 ∣ m → x ≤ m → round_to_sector_size x ≤ (m : ℚ)) := by
  have hmain : round_to_sector_size x = ((512 * ((x + 511) / 512) : ℕ) : ℚ) := by
    unfold round_to_sector_size
    by_cases hdvd : 512 ∣ x
    · rw [if_pos ((den_eq_one_iff_dvd x).mpr hdvd)]
      obtain ⟨k, rfl⟩ := hdvd
      have h1 : (512 * k + 511) / 512 = k := by omega
      rw [h1, div_mul_cancel₀ _ (by norm_num : (512 : ℚ) ≠ 0)]
    · rw [if_neg (fun h => hdvd ((den_eq_one_iff_dvd x).mp h))]
      have hfloor : ⌊(x : ℚ) / 512⌋ = ((x / 512 : ℕ) : ℤ) := by
        have h := Rat.floor_natCast_div_natCast x 512
        have h2 : ((x : ℤ)) / ((512 : ℕ) : ℤ) = ((x / 512 : ℕ) : ℤ) := by
          push_cast
          omega
        rw [show ((512 : ℚ)) = ((512 : ℕ) : ℚ) from by norm_num]
        rw [h, h2]
      rw [hfloor]
      have h1 : (x + 511) / 512 = x / 512 + 1 := by
        rcases Nat.lt_or_ge (x % 512) 1 with h | h
        · exact absurd (by omega : 512 ∣ x) hdvd
        · omega
      rw [h1]
      generalize x / 512 = a
      push_cast
      ring
  refine ⟨hmain, ?_, ⟨(x + 511) / 512, hmain⟩, ?_, ?_⟩
  · rw [hmain]
    exact round_fixed_on_multiple ((x + 511) / 512)
  · rw [hmain]
    have : x ≤ 512 * ((x + 511) / 512) := by omega
    exact_mod_cast this
  · intro m hm hxm
    rw [hmain]
    obtain ⟨j, rfl⟩ := hm
    have : 512 * ((x + 511) / 512) ≤ 512 * j := by omega
    exact_mod_cast this

/-- C5 witness: minimality at `x = 1000` against the 512-multiple 1024. -/
theorem C5_round_to_sector_size_witness :
    (512 ∣ 1024) ∧ 1000 ≤ 1024 ∧
      round_to_sector_size ((1000 : ℕ) : ℚ) ≤ ((1024 : ℕ) : ℚ) :=
  ⟨⟨2, rfl⟩, by omega,
    (C5_round_to_sector_size 1000).2.2.2.2 1024 ⟨2, rfl⟩ (by omega)⟩

/-! ## The Block Migrator (`resize_rootfs`)

`resize_rootfs` computes the new image size, creates a zero-filled temporary
file of that size, writes the rewritten label onto it, and then runs one
`dd`-copy per partition: partitions 1 and 2 at their old offsets, partitions
3+ shifted by `additional_sectors = additional_space // SECTOR_SIZE`.  Images
are modelled as byte maps `Nat → Nat`; each `dd` call with
`bs=SECTOR_SIZE, skip, seek, count` is a sector-granular copy. -/

/-- One `dd` invocation: `skip`/`seek`/`count` in 512-byte sectors. -/
structure CopyOp where
  skip : Nat
  seek : Nat
  count : Nat

/-- Size of the temporary image and the `dd` copy list issued by
`resize_rootfs`: `size = file_size(image) + additional_space`; partitions
`[:2]` are copied with `seek = skip = offset`, partitions `[2:]` with
`seek = offset + additional_sectors`. -/
def resize_rootfs_plan (imageSize additional_space : Nat)
    (offsets_and_sizes : List (Nat × Nat)) : Nat × List CopyOp :=
  let additional_sectors := additional_space / 512
  (imageSize + additional_space,
    (offsets_and_sizes.take 2).map (fun os => ⟨os.1, os.1, os.2⟩) ++
      (offsets_and_sizes.drop 2).map (fun os => ⟨os.1, os.1 + additional_sectors, os.2⟩))

/-- Effect of one `dd conv=notrunc` copy on the destination byte map. -/
def applyCopy (src : Nat → Nat) (dst : Nat → Nat) (op : CopyOp) : Nat → Nat :=
  fun a =>
    if op.seek * 512 ≤ a ∧ a < (op.seek + op.count) * 512 then
      src (op.skip * 512 + (a - op.seek * 512))
    else dst a

/-- Destination image contents after all copies, starting from the
temporary file as left by `sfdisk` (`base`). -/
def runCopies (src base : Nat → Nat) (ops : List CopyOp) : Nat → Nat :=
  ops.foldl (applyCopy src) base

/-- The migrated image: the copy plan of `resize_rootfs` applied to the
temporary file. -/
def resize_rootfs_image (src base : Nat → Nat) (imageSize additional_space : Nat)
    (offsets_and_sizes : List (Nat × Nat)) : Nat → Nat :=
  runCopies src base (resize_rootfs_plan imageSize additional_space offsets_and_sizes).2

/-- Destination region of a copy, as a predicate on byte addresses. -/
def inDest (op : CopyOp) (a : Nat) : Prop :=
  op.seek * 512 ≤ a ∧ a < (op.seek + op.count) * 512

theorem runCopies_untouched {src : Nat → Nat} {ops : List CopyOp} {a : Nat}
    (h : ∀ op ∈ ops, ¬ inDest op a) (base : Nat → Nat) :
    runCopies src base ops a = base a := by
  induction ops generalizing base with
  | nil => rfl
  | cons op rest ih =>
    show runCopies src (applyCopy src base op) rest a = base a
    rw [ih fun o ho => h o (List.mem_cons_of_mem op ho)]
    unfold applyCopy inDest at *
    rw [if_neg (h op (List.mem_cons_self op rest))]

theorem runCopies_copied {src : Nat → Nat} {ops : List CopyOp} {i : Nat} {a : Nat}
    (hi : i < ops.length) (ha : inDest (ops.get ⟨i, hi⟩) a)
    (hlater : ∀ j, ∀ hj : j < ops.length, i < j → ¬ inDest (ops.get ⟨j, hj⟩) a)
    (base : Nat → Nat) :
    runCopies src base ops a =
      src ((ops.get ⟨i, hi⟩).skip * 512 + (a - (ops.get ⟨i, hi⟩).seek * 512)) := by
  induction ops generalizing base i with
  | nil => exact absurd hi (by simp)
  | cons op rest ih =>
    cases i with
    | zero =>
      show runCopies src (applyCopy src base op) rest a = _
      have hrest : ∀ o ∈ rest, ¬ inDest o a := by
        intro o ho
        obtain ⟨j, hj, rfl⟩ := List.mem_iff_get.mp ho
        exact hlater (j + 1) (by simpa using Nat.succ_lt_succ hj.isLt) (Nat.succ_pos j)
      rw [runCopies_untouched hrest]
      unfold applyCopy
      have ha' : op.seek * 512 ≤ a ∧ a < (op.seek + op.count) * 512 := ha
      rw [if_pos ha']
      rfl
    | succ i' =>
      show runCopies src (applyCopy src base op) rest a = _
      exact ih (Nat.lt_of_succ_lt_succ hi) ha
        (fun j hj hij => hlater (j + 1) (Nat.succ_lt_succ hj) (Nat.succ_lt_succ hij))
        (applyCopy src base op)

theorem plan_length (imageSize additional_space : Nat) (oands : List (Nat × Nat)) :
    (resize_rootfs_plan imageSize additional_space oands).2.length = oands.length := by
  unfold resize_rootfs_plan
  simp
  omega

theorem plan_get (imageSize additional_space : Nat) (oands : List (Nat × Nat))
    (i : Nat) (hi : i < oands.length) :
    (resize_rootfs_plan imageSize additional_space oands).2.get
        ⟨i, by rw [plan_length]; exact hi⟩ =
      (if i < 2 then (⟨(oands.get ⟨i, hi⟩).1, (oands.get ⟨i, hi⟩).1, (oands.get ⟨i, hi⟩).2⟩ : CopyOp)
       else ⟨(oands.get ⟨i, hi⟩).1, (oands.get ⟨i, hi⟩).1 + additional_space / 512,
         (oands.get ⟨i, hi⟩).2⟩) := by
  unfold resize_rootfs_plan
  simp only [List.get_eq_getElem]
  by_cases h2 : i < 2
  · rw [if_pos h2]
    rw [List.getElem_append_left (by simp; omega)]
    rw [List.getElem_map]
    rw [List.getElem_take]
  · rw [if_neg h2]
    rw [List.getElem_append_right (by simp; omega)]
    rw [List.getElem_map]
    rw [List.getElem_drop]
    have hidx : 2 + (i - ((oands.take 2).map
        fun os => (⟨os.1, os.1, os.2⟩ : CopyOp)).length) = i := by
      simp
      omega
    simp only [hidx]

/-- C2.  If the additional space is a whole multiple of the 512-byte sector
size and the source partition extents are ordered and non-overlapping, then
`resize_rootfs` (i) sizes the new image at exactly the original size plus
`additionalSectors * 512` bytes, and (ii) copies every partition with index
`<= 2` (0-based `i < 2`) to the same start sector, and every partition with
index `> 2` to `oldStart + additionalSectors`, each byte of each partition's
original extent being read from its old position in the source image. -/
theorem C2_resize_rootfs (src base : Nat → Nat) (imageSize additional_space : Nat)
    (oands : List (Nat × Nat)) (hdiv : 512 ∣ additional_space)
    (hsort : oands.Pairwise fun p q => p.1 + p.2 ≤ q.1) :
    (resize_rootfs_plan imageSize additional_space oands).1 =
        imageSize + (additional_space / 512) * 512 ∧
      ∀ i, ∀ hi : i < oands.length, ∀ b, b < (oands.get ⟨i, hi⟩).2 * 512 →
        resize_rootfs_image src base imageSize additional_space oands
            ((if i < 2 then (oands.get ⟨i, hi⟩).1
              else (oands.get ⟨i, hi⟩).1 + additional_space / 512) * 512 + b) =
          src ((oands.get ⟨i, hi⟩).1 * 512 + b) := by
  constructor
  · show imageSize + additional_space = _
    rw [Nat.div_mul_cancel hdiv]
  · intro i hi b hb
    set as := additional_space / 512 with has
    set o := (oands.get ⟨i, hi⟩).1 with ho
    set s := (oands.get ⟨i, hi⟩).2 with hs
    set a := (if i < 2 then o else o + as) * 512 + b with hadef
    have hilen : i < (resize_rootfs_plan imageSize additional_space oands).2.length := by
      rw [plan_length]
      exact hi
    have hgi := plan_get imageSize additional_space oands i hi
    have hseek : ((resize_rootfs_plan imageSize additional_space oands).2.get
        ⟨i, hilen⟩).seek = if i < 2 then o else o + as := by
      rw [hgi]
      by_cases h2 : i < 2 <;> simp [h2, ho, has]
    have hskip : ((resize_rootfs_plan imageSize additional_space oands).2.get
        ⟨i, hilen⟩).skip = o := by
      rw [hgi]
      by_cases h2 : i < 2 <;> simp [h2, ho]
    have hcount : ((resize_rootfs_plan imageSize additional_space oands).2.get
        ⟨i, hilen⟩).count = s := by
      rw [hgi]
      by_cases h2 : i < 2 <;> simp [h2, hs]
    have ha : inDest ((resize_rootfs_plan imageSize additional_space oands).2.get
        ⟨i, hilen⟩) a := by
      unfold inDest
      rw [hseek, hcount, hadef]
      constructor
      · omega
      · by_cases h2 : i < 2 <;> simp [h2] <;> omega
    have hlater : ∀ j, ∀ hj : j < (resize_rootfs_plan imageSize additional_space oands).2.length,
        i < j → ¬ inDest ((resize_rootfs_plan imageSize additional_space oands).2.get
          ⟨j, hj⟩) a := by
      intro j hj hij
      have hjlen : j < oands.length := by
        rw [plan_length] at hj
        exact hj
      have hgj := plan_get imageSize additional_space oands j hjlen
      have hpair : o + s ≤ (oands.get ⟨j, hjlen⟩).1 :=
        List.pairwise_iff_get.mp hsort ⟨i, hi⟩ ⟨j, hjlen⟩ hij
      unfold inDest
      intro hcontra
      obtain ⟨hlo, _⟩ := hcontra
      have hseekj : ((resize_rootfs_plan imageSize additional_space oands).2.get
          ⟨j, hj⟩).seek = if j < 2 then (oands.get ⟨j, hjlen⟩).1
            else (oands.get ⟨j, hjlen⟩).1 + as := by
        have hj' : (⟨j, hj⟩ : Fin _) = ⟨j, by rw [plan_length]; exact hjlen⟩ := rfl
        rw [hj', hgj]
        by_cases h2 : j < 2
        · rw [if_pos h2, if_pos h2]
        · rw [if_neg h2, if_neg h2]
      rw [hseekj] at hlo
      have haval : a < ((if i < 2 then o else o + as) + s) * 512 := by
        rw [hadef]
        by_cases h2 : i < 2 <;> simp [h2] <;> omega
      have hmono : (if i < 2 then o else o + as) + s ≤
          (if j < 2 then (oands.get ⟨j, hjlen⟩).1 else (oands.get ⟨j, hjlen⟩).1 + as) := by
        by_cases h2i : i < 2 <;> by_cases h2j : j < 2
        · rw [if_pos h2i, if_pos h2j]
          omega
        · rw [if_pos h2i, if_neg h2j]
          omega
        · rw [if_neg h2i, if_pos h2j]
          omega
        · rw [if_neg h2i, if_neg h2j]
          omega
      have hfin : a < (if j < 2 then (oands.get ⟨j, hjlen⟩).1
          else (oands.get ⟨j, hjlen⟩).1 + as) * 512 := by
        calc a < ((if i < 2 then o else o + as) + s) * 512 := haval
        _ ≤ _ := Nat.mul_le_mul_right 512 hmono
      exact absurd (Nat.lt_of_le_of_lt hlo hfin) (lt_irrefl _)
    unfold resize_rootfs_image
    rw [runCopies_copied hilen ha hlater base]
    rw [hskip, hseek, hadef]
    generalize (if i < 2 then o else o + as) = X
    have harg : X * 512 + b - X * 512 = b := by omega
    rw [harg]

/-- C2 witness: a concrete three-partition image with 1024 bytes of
additional space; partition 3 is read at its old offset and written two
sectors later. -/
theorem C2_resize_rootfs_witness :
    (512 ∣ 1024) ∧
      ([(10, 2), (20, 3), (30, 4)] : List (Nat × Nat)).Pairwise
        (fun p q => p.1 + p.2 ≤ q.1) ∧
      (2 : Nat) < 3 ∧ (100 : Nat) < 4 * 512 ∧
      resize_rootfs_image (fun v => v % 251) (fun _ => 0) 99999 1024
          [(10, 2), (20, 3), (30, 4)] ((30 + 2) * 512 + 100) =
        (fun v => v % 251) (30 * 512 + 100) := by
  refine ⟨⟨2, rfl⟩, by decide, by decide, by decide, ?_⟩
  have h := (C2_resize_rootfs (fun v => v % 251) (fun _ => 0) 99999 1024
    [(10, 2), (20, 3), (30, 4)] ⟨2, rfl⟩ (by decide)).2 2 (by decide) 100 (by decide)
  simpa using h

/-! ## The ext4 Filesystem Resizer (`expand_ext4`)

`e2fsck("-p", "-f", loop_device, _ok_code=[0, 1, 2])` raises
`ErrorReturnCode` for any exit status outside `ok_code`; the handler logs an
error and calls `exit(1)`.  Otherwise status 0 logs at info severity, 1 and 2
log at warning severity, and `resize2fs` runs. -/

/-- Log severities used by the `logging` module calls in `expand_ext4`. -/
inductive Severity
  | info
  | warning
  | error
deriving DecidableEq

/-- The three messages `expand_ext4` can log about the consistency check. -/
inductive FsckMsg
  | fileSystemOK
  | errorsCorrected
  | errorsNotCorrected
deriving DecidableEq

/-- Outcome of one `expand_ext4` run as a function of the `e2fsck` exit
status: the message logged (with severity), the process exit code if the
preload aborted, and whether `resize2fs` was reached. -/
structure Ext4Run where
  msg : Severity × FsckMsg
  aborted : Option Nat
  resizeRan : Bool
deriving DecidableEq

/-- Exit statuses accepted by the `_ok_code=[0, 1, 2]` argument. -/
def okCode : List Nat := [0, 1, 2]

/-- `expand_ext4` behaviour for a given `e2fsck` exit status. -/
def expand_ext4 (status : Nat) : Ext4Run :=
  if status ∈ okCode then
    if status = 0 then ⟨(Severity.info, FsckMsg.fileSystemOK), none, true⟩
    else ⟨(Severity.warning, FsckMsg.errorsCorrected), none, true⟩
  else ⟨(Severity.error, FsckMsg.errorsNotCorrected), some 1, false⟩

/-- C3.  In the ext4 resize path: exit status 0 logs the filesystem clean
(info severity) and proceeds to the resize; statuses 1 and 2 log that errors
were corrected, non-fatally, at a severity different from the clean case,
and still proceed to the resize; any other status aborts the whole preload
with exit code 1 before the resize is attempted. -/
theorem C3_expand_ext4 (status : Nat) :
    (status = 0 →
      expand_ext4 status = ⟨(Severity.info, FsckMsg.fileSystemOK), none, true⟩) ∧
    (status = 1 ∨ status = 2 →
      expand_ext4 status = ⟨(Severity.warning, FsckMsg.errorsCorrected), none, true⟩ ∧
        (expand_ext4 status).aborted = none ∧ (expand_ext4 status).resizeRan = true ∧
        (expand_ext4 status).msg.1 ≠ (expand_ext4 0).msg.1) ∧
    (status ∉ okCode →
      (expand_ext4 status).aborted = some 1 ∧ (expand_ext4 status).resizeRan = false) := by
  refine ⟨?_, ?_, ?_⟩
  · rintro rfl
    rfl
  · rintro (rfl | rfl) <;> exact ⟨rfl, rfl, rfl, by decide⟩
  · intro hbad
    unfold expand_ext4
    rw [if_neg hbad]
    exact ⟨rfl, rfl⟩

/-- C3 witness: statuses 1 (errors corrected, run proceeds) and 3 (abort
before resize). -/
theorem C3_expand_ext4_witness :
    ((1 : Nat) = 1 ∨ (1 : Nat) = 2) ∧
      expand_ext4 1 = ⟨(Severity.warning, FsckMsg.errorsCorrected), none, true⟩ ∧
      (3 : Nat) ∉ okCode ∧ (expand_ext4 3).aborted = some 1 ∧
      (expand_ext4 3).resizeRan = false := by
  refine ⟨Or.inl rfl, ((C3_expand_ext4 1).2.1 (Or.inl rfl)).1, by decide, ?_, ?_⟩
  · exact ((C3_expand_ext4 3).2.2 (by decide)).1
  · exact ((C3_expand_ext4 3).2.2 (by decide)).2

/-! ## Scoped resource helpers (`mount_context_manager`, `losetup_context_manager`)

Both helpers are `@contextmanager` generators whose `yield` is not wrapped in
`try/finally`.  Per the semantics of `contextlib.contextmanager`, when the
body of the `with` block raises, the exception is thrown into the generator
at the `yield` point; without a `try/finally` the code after the `yield`
(the release actions) never runs. -/

/-- External actions performed by the two resource helpers. -/
inductive ResAction
  | mountA
  | umountA
  | rmdirA
  | losetupBindA
  | losetupDetachA
  | bodyA
deriving DecidableEq

/-- Semantics of a `@contextmanager` generator with a bare `yield` (no
`try/finally`): acquire actions run, then the body; if the body raises, the
release actions are skipped and the exception propagates; otherwise the
release actions run.  Returns the executed action trace and whether an
exception escaped. -/
def runWithCM (acquire release : List ResAction) (bodyRaises : Bool) :
    List ResAction × Bool :=
  if bodyRaises then (acquire ++ [ResAction.bodyA], true)
  else (acquire ++ [ResAction.bodyA] ++ release, false)

/-- `mount_context_manager`: mount, yield, then umount and rmdir. -/
def mount_context_manager (bodyRaises : Bool) : List ResAction × Bool :=
  runWithCM [ResAction.mountA] [ResAction.umountA, ResAction.rmdirA] bodyRaises

/-- `losetup_context_manager`: bind a loop device, yield, then detach. -/
def losetup_context_manager (bodyRaises : Bool) : List ResAction × Bool :=
  runWithCM [ResAction.losetupBindA] [ResAction.losetupDetachA] bodyRaises

/-- C7 (code evaluated at the failing input).  When the code inside the
scope raises an error, neither helper runs its release actions: the mount
helper performs only the mount (no umount, no rmdir) and the loop helper
performs only the bind (no detach), while the exception escapes — the
release action does NOT run on every exit path, contrary to the claim. -/
theorem C7_cleanup_skipped_on_error :
    mount_context_manager true = ([ResAction.mountA, ResAction.bodyA], true) ∧
      ResAction.umountA ∉ (mount_context_manager true).1 ∧
      ResAction.rmdirA ∉ (mount_context_manager true).1 ∧
      losetup_context_manager true = ([ResAction.losetupBindA, ResAction.bodyA], true) ∧
      ResAction.losetupDetachA ∉ (losetup_context_manager true).1 ∧
      ResAction.umountA ∈ (mount_context_manager false).1 ∧
      ResAction.losetupDetachA ∈ (losetup_context_manager false).1 := by
  decide

/-! ## Daemon readiness loop (`start_docker_daemon`)

`while not ok: output = docker(..., "version", _ok_code=[0, 1]); ok =
output.exit_code == 0`.  Exit code 1 does not raise (it is in `ok_code`) but
also does not set `ok`, so the loop polls again; any other nonzero exit code
raises `ErrorReturnCode` out of the loop. -/

/-- Result of running the readiness loop against a finite trace of
`docker version` exit codes: ready after `n` polls, crashed on an
unexpected exit code, or still polling when the trace is exhausted. -/
inductive PollOutcome
  | ready (polls : Nat)
  | errorExit (code : Nat)
  | exhausted
deriving DecidableEq

/-- The readiness loop of `start_docker_daemon`, driven by a trace of
exit codes of successive `docker version` status queries. -/
def docker_ready_loop : List Nat → PollOutcome
  | [] => PollOutcome.exhausted
  | c :: rest =>
    if c = 0 then PollOutcome.ready 1
    else if c = 1 then
      match docker_ready_loop rest with
      | PollOutcome.ready n => PollOutcome.ready (n + 1)
      | r => r
    else PollOutcome.errorExit c

/-- Modelled from the spec: the readiness loop the claim describes, which
declares the daemon ready exactly when the status query either succeeds
(exit code 0) or reports a version mismatch (exit code 1). -/
def claimed_ready_loop : List Nat → PollOutcome
  | [] => PollOutcome.exhausted
  | c :: _ =>
    if c = 0 ∨ c = 1 then PollOutcome.ready 1
    else PollOutcome.errorExit c

/-- C8 counterexample: when the first status query returns exit code 1
(daemon running, version mismatch), the loop described by the claim declares
the daemon ready, but the code's loop does not exit — it keeps polling (the
trace `[1]` ends with the loop still waiting). -/
theorem C8_counterexample :
    claimed_ready_loop [1] = PollOutcome.ready 1 ∧
      docker_ready_loop [1] = PollOutcome.exhausted ∧
      docker_ready_loop [1] ≠ claimed_ready_loop [1] := by
  decide

/-- C8 as amended: the loop declares the daemon ready exactly on the first
status query returning exit code 0; exit code 1 (version mismatch) is
tolerated — no exception is raised — but polling continues; any other exit
code raises `ErrorReturnCode` out of the loop. -/
theorem C8_amended :
    (∀ k rest, docker_ready_loop (List.replicate k 1 ++ 0 :: rest) =
      PollOutcome.ready (k + 1)) ∧
    (∀ k, docker_ready_loop (List.replicate k 1) = PollOutcome.exhausted) ∧
    (∀ k c rest, c ≠ 0 → c ≠ 1 →
      docker_ready_loop (List.replicate k 1 ++ c :: rest) =
        PollOutcome.errorExit c) := by
  refine ⟨?_, ?_, ?_⟩
  · intro k rest
    induction k with
    | zero => rfl
    | succ m ih =>
      show docker_ready_loop (1 :: (List.replicate m 1 ++ 0 :: rest)) = _
      unfold docker_ready_loop
      rw [if_neg (by omega), if_pos rfl, ih]
  · intro k
    induction k with
    | zero => rfl
    | succ m ih =>
      show docker_ready_loop (1 :: List.replicate m 1) = _
      unfold docker_ready_loop
      rw [if_neg (by omega), if_pos rfl, ih]
  · intro k c rest hc0 hc1
    induction k with
    | zero =>
      show docker_ready_loop (c :: rest) = _
      unfold docker_ready_loop
      rw [if_neg hc0, if_neg hc1]
    | succ m ih =>
      show docker_ready_loop (1 :: (List.replicate m 1 ++ c :: rest)) = _
      unfold docker_ready_loop
      rw [if_neg (by omega), if_pos rfl, ih]

/-- C8 amended-claim witness: two mismatch responses then a success give
readiness at the third poll; exit code 2 crashes the loop. -/
theorem C8_amended_witness :
    ((2 : Nat) ≠ 0) ∧ ((2 : Nat) ≠ 1) ∧
      docker_ready_loop (List.replicate 2 1 ++ 0 :: []) = PollOutcome.ready 3 ∧
      docker_ready_loop (List.replicate 0 1 ++ 2 :: []) = PollOutcome.errorExit 2 :=
  ⟨by decide, by decide, C8_amended.1 2 [],
    C8_amended.2.2 0 2 [] (by decide) (by decide)⟩

/-! ## Version comparison (`LooseVersion`) and filesystem-variant selection

`resize_fs_copy_splash_image_and_pull` computes
`LooseVersion(version) >= LooseVersion("2.0.0")` and selects the ext4 path
with the `aufs` docker storage driver when true, the mounted btrfs path with
the `btrfs` driver otherwise.  `distutils.version.LooseVersion` splits the
string with `(\d+ | [a-z]+ | \.)`, drops `'.'` pieces, converts digit runs to
`int`, and compares component lists with Python list comparison (first
differing element decides; a strict prefix is smaller; comparing an `int`
with a `str` raises `TypeError`). -/

theorem lenDropWhile_le (p : Char → Bool) (l : List Char) :
    (l.dropWhile p).length ≤ l.length := by
  induction l with
  | nil => simp
  | cons c t ih =>
    rw [List.dropWhile_cons]
    split
    · exact Nat.le_succ_of_le ih
    · exact Nat.le_refl _

theorem lenDropWhile_lt {p : Char → Bool} {c : Char} (hc : p c = true) (t : List Char) :
    ((c :: t).dropWhile p).length < (c :: t).length := by
  rw [List.dropWhile_cons, if_pos hc]
  exact Nat.lt_succ_of_le (lenDropWhile_le p t)

/-- The regex class `[a-z]` of `LooseVersion.component_re`. -/
def isLowerAZ (c : Char) : Bool := 'a' ≤ c && c ≤ 'z'

/-- A character matched by none of the three component classes; runs of such
characters survive `re.split` as separator pieces. -/
def isOtherTok (c : Char) : Bool := !c.isDigit && !isLowerAZ c && !(c = '.')

/-- `LooseVersion.parse` tokenisation: split into digit runs, lowercase
runs, and runs of unmatched characters; `'.'` is dropped. -/
def lvTokenize : List Char → List (List Char)
  | [] => []
  | c :: t =>
    if h1 : c.isDigit then
      ((c :: t).takeWhile Char.isDigit) :: lvTokenize ((c :: t).dropWhile Char.isDigit)
    else if h2 : isLowerAZ c then
      ((c :: t).takeWhile isLowerAZ) :: lvTokenize ((c :: t).dropWhile isLowerAZ)
    else if h3 : c = '.' then lvTokenize t
    else
      ((c :: t).takeWhile isOtherTok) :: lvTokenize ((c :: t).dropWhile isOtherTok)
  termination_by s => s.length
  decreasing_by
  · exact lenDropWhile_lt h1 t
  · exact lenDropWhile_lt h2 t
  · simp
  · exact lenDropWhile_lt (by simp [isOtherTok, h1, h2, h3]) t

/-- One parsed version component: `int` or `str`. -/
inductive PyComp
  | num (n : Nat)
  | strc (s : List Char)
deriving DecidableEq

/-- `LooseVersion.parse`: tokenise, then convert pure-digit pieces with
`int(...)`. -/
def lvParse (s : List Char) : List PyComp :=
  (lvTokenize s).map fun t =>
    if t.all pyIsDigit then PyComp.num (digitsToNat t) else PyComp.strc t

/-- Python `str`-vs-`str` `<`: lexicographic by code point. -/
def charListLt : List Char → List Char → Bool
  | [], [] => false
  | [], _ :: _ => true
  | _ :: _, [] => false
  | a :: as, b :: bs => if a = b then charListLt as bs else decide (a.val < b.val)

/-- Python `<` on two components; `none` models `TypeError` for `int`-vs-`str`. -/
def pyCompLt : PyComp → PyComp → Option Bool
  | PyComp.num a, PyComp.num b => some (decide (a < b))
  | PyComp.strc a, PyComp.strc b => some (charListLt a b)
  | _, _ => none

/-- Python `<` on two component lists: first differing pair decides; if one
list is exhausted the shorter is smaller. -/
def pyListLt : List PyComp → List PyComp → Option Bool
  | [], [] => some false
  | [], _ :: _ => some true
  | _ :: _, [] => some false
  | a :: as, b :: bs => if a = b then pyListLt as bs else pyCompLt a b

/-- `LooseVersion(a) >= LooseVersion(b)` via `Version._cmp`: equality, then
`<`, then `>`; if every test fails `_cmp` returns `None` and the comparison
with `0` raises (`none`). -/
def looseGE (a b : List Char) : Option Bool :=
  let va := lvParse a
  let vb := lvParse b
  if va = vb then some true
  else
    match pyListLt va vb with
    | none => none
    | some true => some false
    | some false =>
      match pyListLt vb va with
      | none => none
      | some true => some true
      | some false => none

/-- The filesystem variant chosen by `resize_fs_copy_splash_image_and_pull`:
whether the filesystem is expanded before mounting (ext4), the docker
storage driver, and whether the resize happens online inside the mount
(btrfs). -/
structure FsVariant where
  unmountedExpand : Bool
  driver : List Char
  onlineResizeInMount : Bool
deriving DecidableEq

/-- The `version_ge_2` branch: unmounted `expand_ext4`, driver `aufs`. -/
def ext4Variant : FsVariant := ⟨true, ("aufs").data, false⟩

/-- The other branch: mounted `expand_btrfs`, driver `btrfs`. -/
def btrfsVariant : FsVariant := ⟨false, ("btrfs").data, true⟩

/-- Variant selection of `resize_fs_copy_splash_image_and_pull` as a
function of the detected OS version string. -/
def resize_fs_select (version : List Char) : Option FsVariant :=
  match looseGE version (("2.0.0").data) with
  | none => none
  | some true => some ext4Variant
  | some false => some btrfsVariant

/-- Modelled from the spec: the leading dotted numeric prefix of a version
string, as a list of numeric components. -/
def leadNum (s : List Char) : List Nat :=
  let d := s.takeWhile Char.isDigit
  if hd : d = [] then []
  else
    digitsToNat d ::
      (match hm : s.dropWhile Char.isDigit with
       | '.' :: rest => leadNum rest
       | _ => [])
  termination_by s.length
  decreasing_by
    calc rest.length < ('.' :: rest).length := by simp
    _ = (s.dropWhile Char.isDigit).length := by rw [hm]
    _ ≤ s.length := lenDropWhile_le _ s

/-- Modelled from the spec: `<` on numeric component lists where a shorter
sequence is padded with zeros. -/
def padLt : List Nat → List Nat → Bool
  | [], [] => false
  | x :: xs, [] => if x ≠ 0 then false else padLt xs []
  | [], y :: ys => if y ≠ 0 then true else padLt [] ys
  | x :: xs, y :: ys => if x < y then true else if y < x then false else padLt xs ys

/-- Modelled from the spec: dotted-numeric `>=` with zero padding, applied
to the leading dotted numeric prefixes ("components compared numerically
left to right, shorter sequences padded with zero"). -/
def specDottedGE (a b : List Char) : Bool := !padLt (leadNum a) (leadNum b)

/-- C4 counterexample: for the detected version string `"2.0"`, the
comparison described by the claim (zero padding) deems `"2.0" >= "2.0.0"`
true and would select the ext4 variant, but `LooseVersion` compares the
strict prefix `[2, 0]` as smaller than `[2, 0, 0]`, so the code selects the
btrfs variant. -/
theorem C4_counterexample :
    specDottedGE (("2.0").data) (("2.0.0").data) = true ∧
      looseGE (("2.0").data) (("2.0.0").data) = some false ∧
      resize_fs_select (("2.0").data) = some btrfsVariant ∧
      some btrfsVariant ≠ some ext4Variant := by
  refine ⟨?_, ?_, ?_, by decide⟩
  · simp [specDottedGE, leadNum, padLt, digitsToNat, List.takeWhile, List.dropWhile]
  · simp [looseGE, lvParse, lvTokenize, pyListLt, pyCompLt, digitsToNat,
      isLowerAZ, isOtherTok, pyIsDigit, List.takeWhile, List.dropWhile]
  · simp [resize_fs_select, looseGE, lvParse, lvTokenize, pyListLt, pyCompLt, digitsToNat,
      isLowerAZ, isOtherTok, pyIsDigit, List.takeWhile, List.dropWhile]

/-- Render a list of numeric components as a dotted version string. -/
def joinDots : List (List Char) → List Char
  | [] => []
  | [d] => d
  | d :: ds => d ++ '.' :: joinDots ds

/-- A purely numeric dotted version string, e.g. `renderVersion [2, 0, 0]`
is `"2.0.0"`. -/
def renderVersion (ns : List Nat) : List Char := joinDots (ns.map natDigits)

/-- Numeric list comparison with no padding: the first differing component
decides, and a strict prefix is smaller. -/
def natListLt : List Nat → List Nat → Bool
  | [], [] => false
  | [], _ :: _ => true
  | _ :: _, [] => false
  | x :: xs, y :: ys => if x = y then natListLt xs ys else decide (x < y)

theorem lvTokenize_nil : lvTokenize [] = [] := by
  rw [lvTokenize.eq_def]

theorem lvTokenize_dot (rest : List Char) : lvTokenize ('.' :: rest) = lvTokenize rest := by
  conv_lhs => rw [lvTokenize.eq_def]
  show (if h1 : ('.' : Char).isDigit then
      (('.' :: rest).takeWhile Char.isDigit) :: lvTokenize (('.' :: rest).dropWhile Char.isDigit)
    else if h2 : isLowerAZ '.' then
      (('.' :: rest).takeWhile isLowerAZ) :: lvTokenize (('.' :: rest).dropWhile isLowerAZ)
    else if h3 : ('.' : Char) = '.' then lvTokenize rest
    else (('.' :: rest).takeWhile isOtherTok) ::
      lvTokenize (('.' :: rest).dropWhile isOtherTok)) = _
  rw [dif_neg (by decide), dif_neg (by decide), dif_pos rfl]

theorem lvTokenize_digit_run {d X : List Char} (hne : d ≠ [])
    (hdd : ∀ c ∈ d, Char.isDigit c = true)
    (hX : ∀ c, X.head? = some c → Char.isDigit c = false) :
    lvTokenize (d ++ X) = d :: lvTokenize X := by
  obtain ⟨c, cs, rfl⟩ : ∃ c cs, d = c :: cs := by
    cases d with
    | nil => exact absurd rfl hne
    | cons c cs => exact ⟨c, cs, rfl⟩
  have htX : X.takeWhile Char.isDigit = [] := by
    cases X with
    | nil => rfl
    | cons x xs => exact takeWhile_cons_false (hX x rfl) xs
  have hdX : X.dropWhile Char.isDigit = X := by
    cases X with
    | nil => rfl
    | cons x xs => exact dropWhile_cons_false (hX x rfl) xs
  show lvTokenize (c :: (cs ++ X)) = _
  conv_lhs => rw [lvTokenize.eq_def]
  show (if h1 : c.isDigit then
      ((c :: (cs ++ X)).takeWhile Char.isDigit) ::
        lvTokenize ((c :: (cs ++ X)).dropWhile Char.isDigit)
    else if h2 : isLowerAZ c then
      ((c :: (cs ++ X)).takeWhile isLowerAZ) :: lvTokenize ((c :: (cs ++ X)).dropWhile isLowerAZ)
    else if h3 : c = '.' then lvTokenize (cs ++ X)
    else ((c :: (cs ++ X)).takeWhile isOtherTok) ::
      lvTokenize ((c :: (cs ++ X)).dropWhile isOtherTok)) = _
  rw [dif_pos (hdd c (List.mem_cons_self c cs))]
  rw [show c :: (cs ++ X) = (c :: cs) ++ X from rfl]
  rw [takeWhile_append_all hdd X, dropWhile_append_all hdd X, htX, hdX]
  rw [List.append_nil]

theorem lvTokenize_renderVersion (n : Nat) (ns : List Nat) :
    lvTokenize (renderVersion (n :: ns)) = (n :: ns).map natDigits := by
  induction ns generalizing n with
  | nil =>
    show lvTokenize (natDigits n) = [natDigits n]
    have h := @lvTokenize_digit_run (natDigits n) [] (natDigits_ne_nil n)
      (natDigits_all_digit n) (by simp)
    rw [List.append_nil] at h
    rw [h, lvTokenize_nil]
  | cons m ms ih =>
    show lvTokenize (natDigits n ++ '.' :: joinDots ((m :: ms).map natDigits)) = _
    rw [lvTokenize_digit_run (natDigits_ne_nil n) (natDigits_all_digit n) (by simp)]
    rw [lvTokenize_dot]
    rw [show joinDots ((m :: ms).map natDigits) = renderVersion (m :: ms) from rfl]
    rw [ih m]
    rfl

theorem lvParse_renderVersion (n : Nat) (ns : List Nat) :
    lvParse (renderVersion (n :: ns)) = (n :: ns).map PyComp.num := by
  unfold lvParse
  rw [lvTokenize_renderVersion, List.map_map]
  refine List.map_congr_left ?_
  intro k _
  simp only [Function.comp_apply]
  rw [if_pos ?_, digitsToNat_natDigits]
  rw [List.all_eq_true]
  exact fun c hc => natDigits_all_digit k c hc

theorem pyListLt_nums (a b : List Nat) :
    pyListLt (a.map PyComp.num) (b.map PyComp.num) = some (natListLt a b) := by
  induction a generalizing b with
  | nil => cases b <;> rfl
  | cons x xs ih =>
    cases b with
    | nil => rfl
    | cons y ys =>
      show (if PyComp.num x = PyComp.num y then
          pyListLt (xs.map PyComp.num) (ys.map PyComp.num)
        else pyCompLt (PyComp.num x) (PyComp.num y)) =
        some (if x = y then natListLt xs ys else decide (x < y))
      by_cases hxy : x = y
      · subst hxy
        rw [if_pos rfl, if_pos rfl, ih ys]
      · rw [if_neg (by simp [hxy]), if_neg hxy]
        rfl

theorem natListLt_irrefl (a : List Nat) : natListLt a a = false := by
  induction a with
  | nil => rfl
  | cons x xs ih =>
    show (if x = x then natListLt xs xs else decide (x < x)) = false
    rw [if_pos rfl, ih]

theorem natListLt_conn {a b : List Nat} (hne : a ≠ b)
    (hab : natListLt a b = false) : natListLt b a = true := by
  induction a generalizing b with
  | nil =>
    cases b with
    | nil => exact absurd rfl hne
    | cons y ys => exact absurd hab (by simp [natListLt])
  | cons x xs ih =>
    cases b with
    | nil => rfl
    | cons y ys =>
      have hab' : (if x = y then natListLt xs ys else decide (x < y)) = false := hab
      show (if y = x then natListLt ys xs else decide (y < x)) = true
      by_cases hxy : x = y
      · subst hxy
        rw [if_pos rfl] at hab'
        rw [if_pos rfl]
        exact ih (fun hcon => hne (by rw [hcon])) hab'
      · rw [if_neg hxy] at hab'
        rw [if_neg (fun hcon => hxy hcon.symm)]
        simp only [decide_eq_false_iff_not, Nat.not_lt] at hab'
        simp only [decide_eq_true_eq]
        omega

theorem map_num_inj {a b : List Nat}
    (h : a.map PyComp.num = b.map PyComp.num) : a = b := by
  induction a generalizing b with
  | nil =>
    cases b with
    | nil => rfl
    | cons y ys => exact absurd h (by simp)
  | cons x xs ih =>
    cases b with
    | nil => exact absurd h (by simp)
    | cons y ys =>
      simp only [List.map_cons, List.cons.injEq, PyComp.num.injEq] at h
      rw [h.1, ih h.2]

theorem looseGE_numeric (n m : Nat) (ns ms : List Nat) :
    looseGE (renderVersion (n :: ns)) (renderVersion (m :: ms)) =
      some (!natListLt (n :: ns) (m :: ms)) := by
  unfold looseGE
  rw [lvParse_renderVersion, lvParse_renderVersion]
  by_cases heq : (n :: ns) = (m :: ms)
  · rw [if_pos (by rw [heq]), heq, natListLt_irrefl]
    rfl
  · rw [if_neg (fun hcon => heq (map_num_inj hcon))]
    rw [pyListLt_nums, pyListLt_nums]
    by_cases hlt : natListLt (n :: ns) (m :: ms) = true
    · rw [hlt]
      rfl
    · have hlt' : natListLt (n :: ns) (m :: ms) = false := by
        cases h : natListLt (n :: ns) (m :: ms)
        · rfl
        · exact absurd h hlt
      rw [hlt']
      rw [natListLt_conn heq hlt']
      rfl

/-- C4 as amended: the filesystem variant is selected once per run by
`LooseVersion` comparison of the detected version against `"2.0.0"`.  On
purely numeric dotted versions this is numeric component-wise comparison in
which a strictly shorter prefix compares as smaller (no zero padding);
`"2.0.0" >= "2.0.0"` holds, `"1.9.5" >= "2.0.0"` does not, and a suffix as
in `"2.0.0-beta.1"` does not break the comparison (such a version compares
greater than its numeric prefix).  Versions at least `"2.0.0"` select the
unmounted ext4 resize with the aufs driver, all others the mounted btrfs
online resize with the btrfs driver. -/
theorem C4_amended :
    (∀ n m : Nat, ∀ ns ms : List Nat,
      looseGE (renderVersion (n :: ns)) (renderVersion (m :: ms)) =
        some (!natListLt (n :: ns) (m :: ms))) ∧
      looseGE (("2.0.0").data) (("2.0.0").data) = some true ∧
      looseGE (("1.9.5").data) (("2.0.0").data) = some false ∧
      looseGE (("2.0.0-beta.1").data) (("2.0.0").data) = some true ∧
      resize_fs_select (("2.0.0").data) = some ext4Variant ∧
      resize_fs_select (("1.9.5").data) = some btrfsVariant ∧
      resize_fs_select (("2.0.0-beta.1").data) = some ext4Variant ∧
      ext4Variant = ⟨true, ("aufs").data, false⟩ ∧
      btrfsVariant = ⟨false, ("btrfs").data, true⟩ := by
  refine ⟨looseGE_numeric, ?_, ?_, ?_, ?_, ?_, ?_, rfl, rfl⟩ <;>
    simp [resize_fs_select, looseGE, lvParse, lvTokenize, pyListLt, pyCompLt, digitsToNat,
      isLowerAZ, isOtherTok, pyIsDigit, List.takeWhile, List.dropWhile]

/-! ## Application metadata (`get_app_data`, `write_apps_json`, pull)

Python dicts are modelled as ordered association lists, and dict objects as
references into an explicit heap so that mutation and `dict.copy()` are
observable.  `write_apps_json` copies its argument, rewrites `imageId` to
the fixed public registry host, deletes `imageRepo`, and dumps a
single-element JSON array. -/

/-- A Python value stored in a dict: string, integer, or reference to a
nested object (the `env` / `config` sub-dicts). -/
inductive PyVal
  | str (s : List Char)
  | intv (n : Int)
  | obj (r : Nat)
deriving DecidableEq

/-- An ordered association list modelling a Python dict. -/
abbrev PyDict := List (List Char × PyVal)

/-- Dict lookup. -/
def dictGet : PyDict → List Char → Option PyVal
  | [], _ => none
  | (k', v) :: rest, k => if k' = k then some v else dictGet rest k

/-- Dict assignment: replace in place, or append when the key is new. -/
def dictSet : PyDict → List Char → PyVal → PyDict
  | [], k, v => [(k, v)]
  | (k', v') :: rest, k, v =>
    if k' = k then (k, v) :: rest else (k', v') :: dictSet rest k v

/-- `del d[k]` (the callers only delete keys that are present). -/
def dictDel : PyDict → List Char → PyDict
  | [], _ => []
  | (k', v') :: rest, k => if k' = k then rest else (k', v') :: dictDel rest k

/-- The mutable store of dict objects; a reference is an index. -/
abbrev Heap := List PyDict

/-- Dereference. -/
def heapGet (h : Heap) (r : Nat) : PyDict := h.getD r []

/-- Overwrite the dict behind a reference. -/
def heapSet (h : Heap) (r : Nat) (d : PyDict) : Heap := h.set r d

theorem dictGet_set_self (d : PyDict) (k : List Char) (v : PyVal) :
    dictGet (dictSet d k v) k = some v := by
  induction d with
  | nil => simp [dictGet, dictSet]
  | cons kv rest ih =>
    obtain ⟨k', v'⟩ := kv
    unfold dictSet
    by_cases hk : k' = k
    · rw [if_pos hk]
      simp [dictGet]
    · rw [if_neg hk]
      unfold dictGet
      rw [if_neg hk]
      exact ih

theorem dictGet_set_ne (d : PyDict) (k k2 : List Char) (v : PyVal) (hne : k2 ≠ k) :
    dictGet (dictSet d k v) k2 = dictGet d k2 := by
  induction d with
  | nil =>
    show dictGet [(k, v)] k2 = none
    show (if k = k2 then some v else dictGet [] k2) = none
    rw [if_neg (fun h => hne h.symm)]
    rfl
  | cons kv rest ih =>
    obtain ⟨k', v'⟩ := kv
    show dictGet (if k' = k then (k, v) :: rest else (k', v') :: dictSet rest k v) k2 =
      if k' = k2 then some v' else dictGet rest k2
    by_cases hk : k' = k
    · rw [if_pos hk]
      show (if k = k2 then some v else dictGet rest k2) = _
      rw [if_neg (fun h => hne h.symm), if_neg (by rw [hk]; exact fun h => hne h.symm)]
    · rw [if_neg hk]
      show (if k' = k2 then some v' else dictGet (dictSet rest k v) k2) = _
      by_cases hk2 : k' = k2
      · rw [if_pos hk2, if_pos hk2]
      · rw [if_neg hk2, if_neg hk2, ih]

theorem dictGet_del_ne (d : PyDict) (k k2 : List Char) (hne : k2 ≠ k) :
    dictGet (dictDel d k) k2 = dictGet d k2 := by
  induction d with
  | nil => rfl
  | cons kv rest ih =>
    obtain ⟨k', v'⟩ := kv
    show dictGet (if k' = k then rest else (k', v') :: dictDel rest k) k2 =
      if k' = k2 then some v' else dictGet rest k2
    by_cases hk : k' = k
    · rw [if_pos hk]
      rw [if_neg (by rw [hk]; exact fun h => hne h.symm)]
    · rw [if_neg hk]
      show (if k' = k2 then some v' else dictGet (dictDel rest k) k2) = _
      by_cases hk2 : k' = k2
      · rw [if_pos hk2, if_pos hk2]
      · rw [if_neg hk2, if_neg hk2, ih]

theorem getD_append_singleton (h : Heap) (d : PyDict) :
    (h ++ [d]).getD h.length [] = d := by
  induction h with
  | nil => rfl
  | cons x rest ih => exact ih

theorem getD_append_left (h : Heap) (d : PyDict) (r : Nat) (hr : r < h.length) :
    (h ++ [d]).getD r [] = h.getD r [] := by
  induction h generalizing r with
  | nil => exact absurd hr (by simp)
  | cons x rest ih =>
    cases r with
    | zero => rfl
    | succ r' => exact ih r' (by simpa using Nat.lt_of_succ_lt_succ hr)

theorem getD_set_self (h : Heap) (r : Nat) (d : PyDict) (hr : r < h.length) :
    (h.set r d).getD r [] = d := by
  induction h generalizing r with
  | nil => exact absurd hr (by simp)
  | cons x rest ih =>
    cases r with
    | zero => rfl
    | succ r' => exact ih r' (Nat.lt_of_succ_lt_succ hr)

theorem getD_set_ne (h : Heap) (r r2 : Nat) (d : PyDict) (hne : r ≠ r2) :
    (h.set r2 d).getD r [] = h.getD r [] := by
  induction h generalizing r r2 with
  | nil => rfl
  | cons x rest ih =>
    cases r2 with
    | zero =>
      cases r with
      | zero => exact absurd rfl hne
      | succ r' => rfl
    | succ r2' =>
      cases r with
      | zero => rfl
      | succ r' => exact ih r' r2' (fun h => hne (by rw [h]))

/-- Key `"imageRepo"`. -/
def imageRepoKey : List Char := ("imageRepo").data

/-- Key `"imageId"`. -/
def imageIdKey : List Char := ("imageId").data

/-- The fixed public registry host prepended at write time. -/
def fixedRegistry : List Char := ("registry2.resin.io/").data

/-- `write_apps_json(data, output)`: `data = data.copy()`; rewrite `imageId`
to the fixed public registry host; `del data["imageRepo"]`; dump `[data]`.
Returns the heap after the call and the JSON array written (`none` models
the `KeyError`/`TypeError` when `imageRepo` is absent or not a string). -/
def write_apps_json (h : Heap) (r : Nat) : Option (Heap × List PyDict) :=
  let copied := heapGet h r
  let r2 := h.length
  match dictGet copied imageRepoKey with
  | some (PyVal.str repo) =>
    let d2 := dictSet copied imageIdKey (PyVal.str (fixedRegistry ++ repo))
    let d3 := dictDel d2 imageRepoKey
    some (heapSet (heapSet (h ++ [copied]) r2 d2) r2 d3, [d3])
  | _ => none

/-- The tail of `resize_fs_copy_splash_image_and_pull`:
`write_apps_json(app_data, ...)` followed by
`docker_pull(docker_sock, app_data["imageId"])`; returns the written array
and the image identifier passed to `docker pull`. -/
def resize_fs_write_and_pull (h : Heap) (r : Nat) : Option (List PyDict × PyVal) :=
  match write_apps_json h r with
  | some (h1, arr) =>
    match dictGet (heapGet h1 r) imageIdKey with
    | some v => some (arr, v)
    | none => none
  | none => none

/-- Lower-casing used by `get_app_data` (`.lower()`, ASCII). -/
def pyLower (s : List Char) : List Char := s.map Char.toLower

/-- The dict literal returned by `get_app_data`:
`image_repo = "{app_name}/{commit}".lower()`,
`image_id = "{REGISTRY_HOST}/{image_repo}".lower()`. -/
def get_app_data (registry_host app_name commit : List Char) (appId : PyVal)
    (envRef configRef : Nat) : PyDict :=
  let image_repo := pyLower (app_name ++ '/' :: commit)
  let image_id := pyLower (registry_host ++ '/' :: image_repo)
  [(("appId").data, appId),
   (("name").data, PyVal.str app_name),
   (("commit").data, PyVal.str commit),
   (imageRepoKey, PyVal.str image_repo),
   (imageIdKey, PyVal.str image_id),
   (("env").data, PyVal.obj envRef),
   (("config").data, PyVal.obj configRef)]

theorem write_apps_json_eq (h : Heap) (r : Nat) (repo : List Char)
    (hrepo : dictGet (heapGet h r) imageRepoKey = some (PyVal.str repo)) :
    write_apps_json h r =
      some (heapSet (heapSet (h ++ [heapGet h r]) h.length
          (dictSet (heapGet h r) imageIdKey (PyVal.str (fixedRegistry ++ repo))))
          h.length
          (dictDel (dictSet (heapGet h r) imageIdKey (PyVal.str (fixedRegistry ++ repo)))
            imageRepoKey),
        [dictDel (dictSet (heapGet h r) imageIdKey (PyVal.str (fixedRegistry ++ repo)))
          imageRepoKey]) := by
  simp only [write_apps_json, hrepo]

/-- C9.  The metadata file written by `write_apps_json` is a JSON array of
exactly one object, whose `imageId` field is the fixed public registry host
`registry2.resin.io/` followed by the image repository path, regardless of
the registry host used to resolve the image; in particular, for the dict
built by `get_app_data` from any `REGISTRY_HOST`, the written `imageId`
does not depend on that host. -/
theorem C9_write_apps_json (h : Heap) (r : Nat) (repo : List Char)
    (hrepo : dictGet (heapGet h r) imageRepoKey = some (PyVal.str repo)) :
    (∃ h' d', write_apps_json h r = some (h', [d']) ∧
      dictGet d' imageIdKey = some (PyVal.str (fixedRegistry ++ repo))) ∧
    (∀ registry_host app_name commit : List Char, ∀ appId : PyVal, ∀ er cr : Nat,
      ∃ h' d', write_apps_json [get_app_data registry_host app_name commit appId er cr] 0 =
        some (h', [d']) ∧
        dictGet d' imageIdKey =
          some (PyVal.str (fixedRegistry ++ pyLower (app_name ++ '/' :: commit)))) := by
  constructor
  · refine ⟨_, _, write_apps_json_eq h r repo hrepo, ?_⟩
    rw [dictGet_del_ne _ _ _ (by decide)]
    exact dictGet_set_self _ _ _
  · intro registry_host app_name commit appId er cr
    refine ⟨_, _, write_apps_json_eq _ 0 (pyLower (app_name ++ '/' :: commit)) ?_, ?_⟩
    · rfl
    · rw [dictGet_del_ne _ _ _ (by decide)]
      exact dictGet_set_self _ _ _

/-- C9 witness: a dict resolved against a non-default registry host still
gets the fixed public host written to `apps.json`. -/
theorem C9_write_apps_json_witness :
    dictGet (heapGet [[(imageRepoKey, PyVal.str (("myrepo/abc").data)),
        (imageIdKey, PyVal.str (("otherhost/myrepo/abc").data))]] 0) imageRepoKey =
      some (PyVal.str (("myrepo/abc").data)) ∧
    (∃ h' d', write_apps_json [[(imageRepoKey, PyVal.str (("myrepo/abc").data)),
        (imageIdKey, PyVal.str (("otherhost/myrepo/abc").data))]] 0 = some (h', [d']) ∧
      dictGet d' imageIdKey =
        some (PyVal.str (fixedRegistry ++ ("myrepo/abc").data))) :=
  ⟨by decide,
    (C9_write_apps_json [[(imageRepoKey, PyVal.str (("myrepo/abc").data)),
      (imageIdKey, PyVal.str (("otherhost/myrepo/abc").data))]] 0
      (("myrepo/abc").data) (by decide)).1⟩

/-- C10.  `write_apps_json` never mutates its input dict: it copies the dict
first and rewrites `imageId` / deletes `imageRepo` only on the copy, so the
caller's dict is unchanged after the call, and the subsequent
`docker_pull(docker_sock, app_data["imageId"])` uses the originally resolved
image identifier (which may name a non-default registry host), not the one
written to the metadata file. -/
theorem C10_write_apps_json_no_mutation (h : Heap) (r : Nat) (repo : List Char)
    (v0 : PyVal) (hr : r < h.length)
    (hrepo : dictGet (heapGet h r) imageRepoKey = some (PyVal.str repo))
    (himg : dictGet (heapGet h r) imageIdKey = some v0) :
    ∃ h' arr, write_apps_json h r = some (h', arr) ∧
      heapGet h' r = heapGet h r ∧
      resize_fs_write_and_pull h r = some (arr, v0) := by
  have hunch : heapGet (heapSet (heapSet (h ++ [heapGet h r]) h.length
      (dictSet (heapGet h r) imageIdKey (PyVal.str (fixedRegistry ++ repo)))) h.length
      (dictDel (dictSet (heapGet h r) imageIdKey (PyVal.str (fixedRegistry ++ repo)))
        imageRepoKey)) r = heapGet h r := by
    unfold heapGet heapSet
    rw [getD_set_ne _ _ _ _ (by omega), getD_set_ne _ _ _ _ (by omega),
      getD_append_left _ _ _ hr]
  refine ⟨_, _, write_apps_json_eq h r repo hrepo, hunch, ?_⟩
  simp only [resize_fs_write_and_pull, write_apps_json_eq h r repo hrepo, hunch, himg]

/-- C10 witness: after the call the caller's dict still holds the
original non-default-host image identifier, and that is what gets pulled. -/
theorem C10_write_apps_json_no_mutation_witness :
    ((0 : Nat) < 1) ∧
    dictGet (heapGet [[(imageRepoKey, PyVal.str (("myrepo/abc").data)),
        (imageIdKey, PyVal.str (("otherhost/myrepo/abc").data))]] 0) imageRepoKey =
      some (PyVal.str (("myrepo/abc").data)) ∧
    dictGet (heapGet [[(imageRepoKey, PyVal.str (("myrepo/abc").data)),
        (imageIdKey, PyVal.str (("otherhost/myrepo/abc").data))]] 0) imageIdKey =
      some (PyVal.str (("otherhost/myrepo/abc").data)) ∧
    (∃ h' arr, write_apps_json [[(imageRepoKey, PyVal.str (("myrepo/abc").data)),
        (imageIdKey, PyVal.str (("otherhost/myrepo/abc").data))]] 0 = some (h', arr) ∧
      heapGet h' 0 = heapGet [[(imageRepoKey, PyVal.str (("myrepo/abc").data)),
        (imageIdKey, PyVal.str (("otherhost/myrepo/abc").data))]] 0 ∧
      resize_fs_write_and_pull [[(imageRepoKey, PyVal.str (("myrepo/abc").data)),
        (imageIdKey, PyVal.str (("otherhost/myrepo/abc").data))]] 0 =
        some (arr, PyVal.str (("otherhost/myrepo/abc").data))) :=
  ⟨by decide, by decide, by decide,
    C10_write_apps_json_no_mutation
      [[(imageRepoKey, PyVal.str (("myrepo/abc").data)),
        (imageIdKey, PyVal.str (("otherhost/myrepo/abc").data))]] 0
      (("myrepo/abc").data) (PyVal.str (("otherhost/myrepo/abc").data))
      (by decide) (by decide) (by decide)⟩

end Preload
